import Mathlib

/-!
Verification development for the dulwich_merge recursive three-way merge core.

The Python sources are embedded shallowly:

* Python byte strings become `Bytes := List Char` (one `Char` per byte);
  string literals are injected with `String.data`.
* `diff3merge.py` (class `Merge3Way` and the `do_file_merge_*` entry points)
  becomes pure functions over `Bytes`; the chunk-walk loop carries explicit
  fuel (the Python loop terminates on the inputs considered here, and every
  theorem either holds for all fuel values or is evaluated with ample fuel).
* `graph_fixed.py` (`plist_get`, `_find_lcas`, `find_merge_base`) becomes
  functions over an abstract commit type with explicit parent/stamp lookups.
* `merge.py` (`_merge_entry`, `merge_tree`, `MergeResults`, `merge`) becomes
  state-passing functions over a flat model of trees and a content-addressed
  object store.

The external collaborators that are not part of this repository's sources
(`dulwich.diff_tree.tree_changes`, `dulwich.patch.is_binary`, the
`myersdiff` and `histogramdiff` modules, `difflib.ndiff`) are modelled from
the specification; each such definition is marked `Modelled from the spec:`.
-/

/-- Python byte strings are modelled as lists of characters, one character
per byte.  Concatenation, slicing and joining then coincide with the
corresponding Python operations on `bytes`. -/
abbrev Bytes := List Char

/-- Inject a Lean string literal as a byte string. -/
def bstr (s : String) : Bytes := s.data

/-- Python `b''.join(chunks)`. -/
def joinBytes (ls : List Bytes) : Bytes := ls.flatten

/-- Helper for `splitLines`: accumulate characters of the current line (in
reverse) and cut a line at each `\r\n`, `\r` or `\n`, keeping the line end,
exactly as Python `bytes.splitlines(keepends=True)` does. -/
def splitLinesAux : List Char → List Char → List (List Char)
  | acc, [] => if acc.isEmpty then [] else [acc.reverse]
  | acc, '\r' :: '\n' :: rest => (acc.reverse ++ ['\r', '\n']) :: splitLinesAux [] rest
  | acc, '\r' :: rest => (acc.reverse ++ ['\r']) :: splitLinesAux [] rest
  | acc, '\n' :: rest => (acc.reverse ++ ['\n']) :: splitLinesAux [] rest
  | acc, c :: rest => splitLinesAux (c :: acc) rest

/-- Python `bytes.splitlines(True)`: split into lines on `\n`, `\r` and
`\r\n`, retaining the line terminators (diff3merge.py calls
`splitlines(True)` on all three inputs). -/
def splitLines (s : Bytes) : List Bytes := splitLinesAux [] s

/-- Splitting and rejoining is the identity on the accumulator plus rest. -/
theorem splitLinesAux_join (acc l : List Char) :
    (splitLinesAux acc l).flatten = acc.reverse ++ l := by
  induction acc, l using splitLinesAux.induct <;> simp_all [splitLinesAux]

/-- Rejoining the split lines of a byte string recovers the byte string. -/
theorem joinBytes_splitLines (s : Bytes) : joinBytes (splitLines s) = s := by
  simpa [joinBytes, splitLines] using splitLinesAux_join [] s

/-- Diff token kinds: the `'  '`, `'+ '` and `'- '` two-byte prefixes of the
diff line streams walked by `_myers_matches`, `_ndiff_matches` and
`_histogram_matches` in diff3merge.py. -/
inductive DTok where
  | keep : DTok
  | ins : DTok
  | del : DTok
deriving DecidableEq, Repr

/-- A diff output line: token prefix plus the line payload. -/
abbrev DiffLine := DTok × Bytes

/-- Walk a diff token stream maintaining the `on`/`dn` counters and collect
`matches[on] = dn` entries, exactly as the three `_*_matches` walkers of
diff3merge.py do (they differ only in the diff engine that produces the
stream). -/
def tokensToMatches (toks : List DiffLine) : List (Nat × Nat) :=
  (toks.foldl
    (fun st t =>
      match t.1 with
      | DTok.keep => (st.1 + 1, st.2.1 + 1, st.2.2 ++ [(st.1 + 1, st.2.1 + 1)])
      | DTok.ins => (st.1, st.2.1 + 1, st.2.2)
      | DTok.del => (st.1 + 1, st.2.1, st.2.2))
    (0, 0, [])).2.2

/-- Lookup in a match dictionary (`on ∈ matches` / `matches[on]`); keys are
inserted at most once by the walkers, so a first-match lookup models the
Python dict. -/
def mmLookup (m : List (Nat × Nat)) (k : Nat) : Option Nat :=
  match m.find? (fun p => p.1 = k) with
  | some p => some p.2
  | none => none

/-- Fueled recursion for `sesTokens`; the combined input length strictly
decreases at each call, so the fuel supplied by `sesTokens` never runs
out.  (Structural recursion on the fuel keeps the definition reducible by
the kernel.) -/
def sesTokensF : Nat → List Bytes → List Bytes → List DiffLine
  | 0, _, _ => []
  | _ + 1, [], [] => []
  | fuel + 1, [], d :: ds => (DTok.ins, d) :: sesTokensF fuel [] ds
  | fuel + 1, o :: os, [] => (DTok.del, o) :: sesTokensF fuel os []
  | fuel + 1, o :: os, d :: ds =>
    if o = d then (DTok.keep, o) :: sesTokensF fuel os ds
    else
      let l := sesTokensF fuel os (d :: ds)
      let r := sesTokensF fuel (o :: os) ds
      if l.length ≤ r.length then (DTok.del, o) :: l else (DTok.ins, d) :: r

/-- Modelled from the spec: `myers_diff` (module `myersdiff`, not under
src/).  Section 4.1 specifies the classic shortest-edit-script diff emitting
`'  '`, `'+ '`, `'- '` tokens; a shortest script is computed here by direct
recursion (equal heads are matched, otherwise the shorter of the
delete-first and insert-first scripts is taken, deletion first on ties). -/
def sesTokens (os ds : List Bytes) : List DiffLine :=
  sesTokensF (os.length + ds.length + 1) os ds

/-- Number of occurrences of a line in a line list (the base-side histogram
count of the histogram strategy). -/
def occCount (l : Bytes) (os : List Bytes) : Nat := (os.filter (fun x => x = l)).length

/-- Candidate anchors: base-side lines that also occur on the other side,
in base order. -/
def anchorCands (os ds : List Bytes) : List Bytes := os.filter (fun x => ds.contains x)

/-- Pick the base-side line with the lowest base-side occurrence count that
also occurs on the other side, preferring the earliest on ties. -/
def bestAnchor (os ds : List Bytes) : Option Bytes :=
  (anchorCands os ds).foldl
    (fun best x =>
      match best with
      | none => some x
      | some b => if occCount x os < occCount b os then some x else some b)
    none

/-- Split a list at the first occurrence of an element, dropping it. -/
def splitAtFirst : List Bytes → Bytes → List Bytes × List Bytes
  | [], _ => ([], [])
  | y :: ys, x =>
    if y = x then ([], ys)
    else ((y :: (splitAtFirst ys x).1), (splitAtFirst ys x).2)

theorem splitAtFirst_fst_lt (l : List Bytes) (x : Bytes) (h : x ∈ l) :
    (splitAtFirst l x).1.length < l.length := by
  induction l with
  | nil => cases h
  | cons y ys ih =>
    by_cases hy : y = x
    · simp [splitAtFirst, hy]
    · have hx : x ∈ ys := by
        rcases List.mem_cons.mp h with h1 | h2
        · exact absurd h1.symm hy
        · exact h2
      have := ih hx
      simp only [splitAtFirst, if_neg hy, List.length_cons]
      omega

theorem splitAtFirst_snd_lt (l : List Bytes) (x : Bytes) (h : x ∈ l) :
    (splitAtFirst l x).2.length < l.length := by
  induction l with
  | nil => cases h
  | cons y ys ih =>
    by_cases hy : y = x
    · simp [splitAtFirst, hy]
    · have hx : x ∈ ys := by
        rcases List.mem_cons.mp h with h1 | h2
        · exact absurd h1.symm hy
        · exact h2
      have := ih hx
      simp only [splitAtFirst, if_neg hy, List.length_cons]
      omega

theorem splitAtFirst_fst_le (l : List Bytes) (x : Bytes) :
    (splitAtFirst l x).1.length ≤ l.length := by
  induction l with
  | nil => simp [splitAtFirst]
  | cons y ys ih =>
    by_cases hy : y = x
    · simp [splitAtFirst, hy]
    · simp only [splitAtFirst, if_neg hy, List.length_cons]
      omega

/-- Fueled recursion for `histDiff`; the combined length of the subranges
strictly decreases at each recursive call (the anchor is consumed), so the
fuel supplied by `histDiff` never runs out. -/
def histDiffF : Nat → List Bytes → List Bytes → List DiffLine
  | 0, _, _ => []
  | fuel + 1, os, ds =>
    match bestAnchor os ds with
    | none => os.map (fun o => (DTok.del, o)) ++ ds.map (fun d => (DTok.ins, d))
    | some a =>
      if a ∈ os ∧ a ∈ ds then
        histDiffF fuel (splitAtFirst os a).1 (splitAtFirst ds a).1 ++ [(DTok.keep, a)] ++
          histDiffF fuel (splitAtFirst os a).2 (splitAtFirst ds a).2
      else
        os.map (fun o => (DTok.del, o)) ++ ds.map (fun d => (DTok.ins, d))

/-- Modelled from the spec: the histogram diff (`HistogramDiffer.histdiff`,
module `histogramdiff`, not under src/).  Section 4.1: pick the base-side
line of lowest base count that also occurs on the other side (earliest on
ties) as an anchor, pair it, recurse on the subranges before and after;
with no common line the subrange is a single unstable block. -/
def histDiff (os ds : List Bytes) : List DiffLine :=
  histDiffF (os.length + ds.length + 1) os ds

/-- Fueled recursion for `ndiffTokens`; as for the histogram differ the
anchor is consumed, so the combined length strictly decreases. -/
def ndiffTokensF : Nat → List Bytes → List Bytes → List DiffLine
  | 0, _, _ => []
  | fuel + 1, os, ds =>
    match (os.filter
        (fun x => occCount x os = 1 ∧ occCount x ds = 1 ∧ ds.contains x)).head? with
    | some a =>
      if a ∈ os ∧ a ∈ ds then
        ndiffTokensF fuel (splitAtFirst os a).1 (splitAtFirst ds a).1 ++ [(DTok.keep, a)] ++
          ndiffTokensF fuel (splitAtFirst os a).2 (splitAtFirst ds a).2
      else sesTokens os ds
    | none => sesTokens os ds

/-- Modelled from the spec: the patience-style differ (`difflib.ndiff`, an
external collaborator).  Section 4.1: a longest-common-subsequence variant
where unique anchor lines drive the match; lines occurring exactly once on
both sides are paired as anchors, otherwise a plain shortest-edit-script is
used. -/
def ndiffTokens (os ds : List Bytes) : List DiffLine :=
  ndiffTokensF (os.length + ds.length + 1) os ds

/-- Modelled from the spec: `HistogramDiffer.common_base` (module
`histogramdiff`, not under src/), used by `generate_common_ancestor` in
diff3merge.py: the lines the two sides have in common, i.e. the `'  '`
lines of the histogram diff of the two inputs. -/
def commonBase (alice bob : List Bytes) : List Bytes :=
  (histDiff alice bob).filterMap (fun t => if t.1 = DTok.keep then some t.2 else none)

/-- Port of `generate_common_ancestor` (diff3merge.py, lines 23-26). -/
def generateCommonAncestor (alice bob : Bytes) : Bytes :=
  joinBytes (commonBase (splitLines alice) (splitLines bob))

/-- Conflict ranges as recorded by `Merge3Way.get_conflicts`:
`((ancestor begin, end), (alice begin, end), (bob begin, end))`. -/
abbrev CRange := (Nat × Nat) × (Nat × Nat) × (Nat × Nat)

/-- Python slice `lines[a:b]` joined with `b''.join`. -/
def joinRange (lines : List Bytes) (r : Nat × Nat) : Bytes :=
  joinBytes ((lines.drop r.1).take (r.2 - r.1))

/-- The diff3 conflict markup emitted by `Merge3Way._write_chunk` in the
default-strategy branch: fixed labels `alice`, `ancestor`, `bob`, nine-long
marker runs, and a trailing space after the `=========` run. -/
def conflictMarkup (ac oc bc : Bytes) : Bytes :=
  bstr "<<<<<<<<< alice\n" ++ ac ++ bstr "||||||||| ancestor\n" ++ oc ++
    bstr "========= \n" ++ bc ++ bstr ">>>>>>>>> bob\n"

/-- The comparison cascade of `Merge3Way._write_chunk` (diff3merge.py,
lines 291-315) on the three joined sub-byte-strings. -/
def resolveChunk (oc ac bc : Bytes) (strategy : String)
    (orange arange brange : Nat × Nat) : Bytes × List CRange :=
  if oc = ac ∧ oc = bc then (oc, [])
  else if oc = ac then (bc, [])
  else if oc = bc then (ac, [])
  else if ac = bc then (ac, [])
  else if strategy = "ort-ours" ∨ strategy = "resolve-ours" then (ac, [])
  else if strategy = "ort-theirs" ∨ strategy = "resolve-theirs" then (bc, [])
  else (conflictMarkup ac oc bc, [(orange, arange, brange)])

/-- Port of `Merge3Way._write_chunk` (diff3merge.py, lines 286-315): join
the three ranges and emit the merged bytes for one chunk together with the
conflict ranges it records. -/
def writeChunk (olines alines blines : List Bytes) (strategy : String)
    (orange arange brange : Nat × Nat) : Bytes × List CRange :=
  resolveChunk (joinRange olines orange) (joinRange alines arange)
    (joinRange blines brange) strategy orange arange brange

/-- The mutable cursor/output state of a `Merge3Way` instance. -/
structure M3State where
  olines : List Bytes
  alines : List Bytes
  blines : List Bytes
  strategy : String
  amatches : List (Nat × Nat)
  bmatches : List (Nat × Nat)
  onn : Nat
  ann : Nat
  bnn : Nat
  chunks : List Bytes
  conflicts : List CRange

/-- Port of `Merge3Way._inbounds`. -/
def m3Inbounds (st : M3State) (i : Nat) : Bool :=
  (st.onn + i ≤ st.olines.length) || (st.ann + i ≤ st.alines.length) ||
    (st.bnn + i ≤ st.blines.length)

/-- Port of `Merge3Way._ismatch`. -/
def m3Ismatch (matchdict : List (Nat × Nat)) (offset : Nat) (onn : Nat) (i : Nat) : Bool :=
  match mmLookup matchdict (onn + i) with
  | some v => v = offset + i
  | none => false

/-- Fueled form of the `while` loop of `Merge3Way._find_next_mismatch`:
the counter `i` only grows and the loop stops as soon as `i` is out of
bounds, so the combined line count plus two is ample fuel. -/
def m3FindNextMismatchF (st : M3State) : Nat → Nat → Option Nat
  | 0, _ => none
  | fuel + 1, i =>
    if m3Inbounds st i ∧ m3Ismatch st.amatches st.ann st.onn i ∧
        m3Ismatch st.bmatches st.bnn st.onn i then
      m3FindNextMismatchF st fuel (i + 1)
    else if m3Inbounds st i then some i
    else none

/-- Port of `Merge3Way._find_next_mismatch`. -/
def m3FindNextMismatch (st : M3State) : Option Nat :=
  m3FindNextMismatchF st
    (st.olines.length + st.alines.length + st.blines.length + 2) 1

/-- Fueled form of the `while` loop of `Merge3Way._find_next_match`: scan
`ov` upward for a base line present in both match dictionaries, stopping
past the end of the base; the base length plus two is ample fuel. -/
def m3FindNextMatchF (st : M3State) : Nat → Nat → Nat
  | 0, ov => ov
  | fuel + 1, ov =>
    if st.olines.length < ov then ov
    else if (mmLookup st.amatches ov).isSome ∧ (mmLookup st.bmatches ov).isSome then ov
    else m3FindNextMatchF st fuel (ov + 1)

/-- Port of `Merge3Way._find_next_match`: returns `(ov, av, bv)` where the
`av`/`bv` components are the dictionary values when present (`None`
otherwise). -/
def m3FindNextMatch (st : M3State) : Nat × Option Nat × Option Nat :=
  let ov := m3FindNextMatchF st (st.olines.length + 2) (st.onn + 1)
  (ov, mmLookup st.amatches ov, mmLookup st.bmatches ov)

/-- Append one chunk produced by `_write_chunk` to the state. -/
def m3ApplyChunk (st : M3State) (orange arange brange : Nat × Nat) : M3State :=
  let wc := writeChunk st.olines st.alines st.blines st.strategy orange arange brange
  { st with chunks := st.chunks ++ [wc.1], conflicts := st.conflicts ++ wc.2 }

/-- Port of `Merge3Way._emit_chunk`: write the chunk ending just before the
next match at offsets `(o, a, b)` and advance the cursors. -/
def m3EmitChunk (st : M3State) (o a b : Nat) : M3State :=
  let st2 := m3ApplyChunk st (st.onn, o - 1) (st.ann, a - 1) (st.bnn, b - 1)
  { st2 with onn := o - 1, ann := a - 1, bnn := b - 1 }

/-- Port of `Merge3Way._emit_final_chunk`. -/
def m3EmitFinalChunk (st : M3State) : M3State :=
  m3ApplyChunk st (st.onn, st.olines.length + 1) (st.ann, st.alines.length + 1)
    (st.bnn, st.blines.length + 1)

/-- Port of the `while(True)` loop of `Merge3Way._generate_chunks`, with
explicit fuel: each iteration either returns after the final chunk or emits
a chunk and continues.  (`if a and b` tests Python truthiness; the match
dictionaries only store values `≥ 1`, so it coincides with presence.) -/
def m3GenerateChunks : Nat → M3State → M3State
  | 0, st => st
  | fuel + 1, st =>
    match m3FindNextMismatch st with
    | none => m3EmitFinalChunk st
    | some i =>
      if i = 1 then
        match m3FindNextMatch st with
        | (o, some a, some b) => m3GenerateChunks fuel (m3EmitChunk st o a b)
        | _ => m3EmitFinalChunk st
      else
        m3GenerateChunks fuel (m3EmitChunk st (st.onn + i) (st.ann + i) (st.bnn + i))

/-- The diff engines selectable in `Merge3Way.__init__`. -/
inductive DiffKind where
  | myers : DiffKind
  | ndiff : DiffKind
  | histogram : DiffKind
deriving DecidableEq, Repr

/-- Token stream of the selected diff engine. -/
def diffTokens : DiffKind → List Bytes → List Bytes → List DiffLine
  | DiffKind.myers, os, ds => sesTokens os ds
  | DiffKind.ndiff, os, ds => ndiffTokens os ds
  | DiffKind.histogram, os, ds => histDiff os ds

/-- Port of `Merge3Way.__init__`: split the three inputs into lines and
compute both match dictionaries with the selected diff engine. -/
def m3Init (alice bob ancestor : Bytes) (dk : DiffKind) (strategy : String) : M3State :=
  let ol := splitLines ancestor
  let al := splitLines alice
  let bl := splitLines bob
  { olines := ol, alines := al, blines := bl, strategy := strategy,
    amatches := tokensToMatches (diffTokens dk ol al),
    bmatches := tokensToMatches (diffTokens dk ol bl),
    onn := 0, ann := 0, bnn := 0, chunks := [], conflicts := [] }

/-- Port of `Merge3Way.merge` plus `get_conflicts`: run the chunk walk and
join the chunks.  The fuel bounds the number of loop iterations; each
iteration advances at least one cursor or terminates, so the combined line
count plus two suffices for the inputs treated in this development. -/
def merge3Way (alice bob ancestor : Bytes) (dk : DiffKind) (strategy : String) :
    Bytes × List CRange :=
  let st0 := m3Init alice bob ancestor dk strategy
  let fin := m3GenerateChunks
    (st0.olines.length + st0.alines.length + st0.blines.length + 2) st0
  (joinBytes fin.chunks, fin.conflicts)

/-- Python `ancestor == 0` where `ancestor` is a byte string and `0` an
`int`: in Python 3 a `bytes` value never compares equal to an `int`, so the
comparison is always `False`. -/
def pyBytesEqZero (_s : Bytes) : Bool := false

/-- Python truthiness of a byte string: `not ancestor` is true exactly when
the byte string is empty. -/
def pyBytesFalsy (s : Bytes) : Bool := s.isEmpty

/-- Port of `do_file_merge_myers` (diff3merge.py, lines 28-47): with a
falsy (empty) ancestor a common ancestor is synthesized. -/
def doFileMergeMyers (alice bob ancestor : Bytes) (strategy : String) :
    Bytes × List CRange :=
  let anc := if pyBytesFalsy ancestor then generateCommonAncestor alice bob else ancestor
  merge3Way alice bob anc DiffKind.myers strategy

/-- Port of `do_file_merge_histogram` (diff3merge.py, lines 50-69). -/
def doFileMergeHistogram (alice bob ancestor : Bytes) (strategy : String) :
    Bytes × List CRange :=
  let anc := if pyBytesFalsy ancestor then generateCommonAncestor alice bob else ancestor
  merge3Way alice bob anc DiffKind.histogram strategy

/-- Port of `do_file_merge_ndiff` (diff3merge.py, lines 72-91).  The guard
in the source reads `if not ancestor == 0:`, i.e. `not (ancestor == 0)`;
since a byte string never equals the integer `0`, the guard is always true
and the supplied ancestor is always replaced by the synthesized one. -/
def doFileMergeNdiff (alice bob ancestor : Bytes) (strategy : String) :
    Bytes × List CRange :=
  let anc := if ¬(pyBytesEqZero ancestor = true) then generateCommonAncestor alice bob
    else ancestor
  merge3Way alice bob anc DiffKind.ndiff strategy

/-- State flags of `_find_lcas` (graph_fixed.py, lines 41-44), one field per
bit of the Python bit mask: `_ANC_OF_1 = 1`, `_ANC_OF_2 = 2`, `_DNC = 4`,
`_LCA = 8`. -/
structure GFlags where
  anc1 : Bool
  anc2 : Bool
  dnc : Bool
  lca : Bool
deriving DecidableEq, Repr

/-- The zero flag value (`cstates.get(c, 0)`). -/
def GFlags.zero : GFlags := ⟨false, false, false, false⟩

/-- Bitwise or of two flag values. -/
def GFlags.lor (f g : GFlags) : GFlags :=
  ⟨f.anc1 || g.anc1, f.anc2 || g.anc2, f.dnc || g.dnc, f.lca || g.lca⟩

/-- Masking with `_ANC_OF_1 | _ANC_OF_2 | _DNC` (clears the LCA bit). -/
def GFlags.maskACD (f : GFlags) : GFlags := ⟨f.anc1, f.anc2, f.dnc, false⟩

/-- `(pflags & cflags) == cflags`: every bit of `f` is present in `g`. -/
def GFlags.subsetOf (f g : GFlags) : Bool :=
  (!f.anc1 || g.anc1) && (!f.anc2 || g.anc2) && (!f.dnc || g.dnc) && (!f.lca || g.lca)

/-- The flag value `_ANC_OF_1`. -/
def ancOneFlag : GFlags := ⟨true, false, false, false⟩

/-- The flag value `_ANC_OF_2`. -/
def ancTwoFlag : GFlags := ⟨false, true, false, false⟩

/-- The flag value `_ANC_OF_1 | _ANC_OF_2` compared against in the
candidate test. -/
def ancBothFlag : GFlags := ⟨true, true, false, false⟩

/-- The flag value `_DNC`. -/
def dncFlag : GFlags := ⟨false, false, true, false⟩

/-- The flag value `_LCA`. -/
def lcaFlag : GFlags := ⟨false, false, false, true⟩

/-- Index selected by the scan in `plist_get` (graph_fixed.py, lines 25-33):
the first index whose stamp is strictly greater than every earlier stamp
and not exceeded later, i.e. the first index attaining the maximum. -/
def plistIdxAux {C : Type} : Int → Nat → Nat → List (Int × C) → Nat
  | _, bi, _, [] => bi
  | mdt, bi, j, (dt, _) :: rest =>
    if mdt < dt then plistIdxAux dt j (j + 1) rest else plistIdxAux mdt bi (j + 1) rest

/-- Index popped by `plist_get`. -/
def plistIdx {C : Type} : List (Int × C) → Nat
  | [] => 0
  | (dt, _) :: rest => plistIdxAux dt 0 1 rest

/-- Port of `plist_get` (graph_fixed.py, lines 25-33): return the selected
entry and the list with that entry removed (`lst.pop(i)`).  Python raises
on an empty list; the callers only invoke it on non-empty lists. -/
def plistGet {C : Type} [Inhabited C] (l : List (Int × C)) : (Int × C) × List (Int × C) :=
  (l.getD (plistIdx l) (0, default), l.eraseIdx (plistIdx l))

/-- The mutable state of one `_find_lcas` search: the working list, the
state dictionary (total, defaulting to zero flags as `cstates.get(c, 0)`
does) and the accumulated candidate list. -/
structure LcasState (C : Type) where
  wlst : List (Int × C)
  cstates : C → GFlags
  cands : List (Int × C)

/-- Point update of the state dictionary. -/
def updFlags {C : Type} [DecidableEq C] (f : C → GFlags) (x : C) (v : GFlags) : C → GFlags :=
  fun y => if y = x then v else f y

/-- Port of `_has_candidates` (graph_fixed.py, lines 46-51): some working
list commit is not marked do-not-consider.  (Every commit ever placed on
the working list has an entry in the state dictionary.) -/
def hasCandidates {C : Type} (wlst : List (Int × C)) (cstates : C → GFlags) : Bool :=
  wlst.any fun p => !(cstates p.2).dnc

/-- One iteration of the `_find_lcas` main loop (graph_fixed.py, lines
65-90): pop the entry with the greatest stamp, possibly record it as an
LCA candidate (adding the DNC bit for propagation), and push each parent
whose flags would grow and whose stamp is not below `min_stamp`. -/
def lcasStep {C : Type} [DecidableEq C] [Inhabited C] (parents : C → List C)
    (stamp : C → Int) (minStamp : Int) (st : LcasState C) : LcasState C :=
  let pg := plistGet st.wlst
  let dt := pg.1.1
  let cmt := pg.1.2
  let rest := pg.2
  let cflags0 := (st.cstates cmt).maskACD
  let newCand := cflags0 = ancBothFlag ∧ (st.cstates cmt).lca = false
  let cstates1 :=
    if newCand then updFlags st.cstates cmt ((st.cstates cmt).lor lcaFlag) else st.cstates
  let cands1 := if newCand then st.cands ++ [(dt, cmt)] else st.cands
  let cflags := if cflags0 = ancBothFlag then cflags0.lor dncFlag else cflags0
  let res := (parents cmt).foldl
    (fun acc p =>
      if cflags.subsetOf (acc.1 p) then acc
      else if stamp p < minStamp then acc
      else (updFlags acc.1 p ((acc.1 p).lor cflags), acc.2 ++ [(stamp p, p)]))
    (cstates1, rest)
  ⟨res.2, res.1, cands1⟩

/-- The `while _has_candidates(...)` loop of `_find_lcas` with explicit
fuel; flag growth bounds the number of iterations, so ample fuel reproduces
the Python loop. -/
def lcasLoop {C : Type} [DecidableEq C] [Inhabited C] (parents : C → List C)
    (stamp : C → Int) (minStamp : Int) : Nat → LcasState C → LcasState C
  | 0, st => st
  | fuel + 1, st =>
    if hasCandidates st.wlst st.cstates then
      lcasLoop parents stamp minStamp fuel (lcasStep parents stamp minStamp st)
    else st

/-- Stable insertion into a stamp-sorted list (ascending). -/
def insByStamp {C : Type} (x : Int × C) : List (Int × C) → List (Int × C)
  | [] => [x]
  | y :: ys => if y.1 < x.1 then y :: insByStamp x ys else x :: y :: ys

/-- Python `results.sort(key=lambda x: x[0])`: stable ascending sort by
stamp. -/
def sortByStamp {C : Type} : List (Int × C) → List (Int × C)
  | [] => []
  | x :: xs => insByStamp x (sortByStamp xs)

/-- The final candidate walk of `_find_lcas` (graph_fixed.py, lines 95-98):
drop candidates whose state acquired the DNC bit and deduplicate. -/
def lcasResults {C : Type} [DecidableEq C] (cstates : C → GFlags)
    (cands : List (Int × C)) : List (Int × C) :=
  cands.foldl
    (fun res p => if (cstates p.2).dnc = false ∧ ¬(p ∈ res) then res ++ [p] else res)
    []

/-- Port of `_find_lcas` (graph_fixed.py, lines 36-101) over an abstract
commit type with explicit parent and stamp lookups. -/
def findLcas {C : Type} [DecidableEq C] [Inhabited C] (fuel : Nat) (parents : C → List C)
    (stamp : C → Int) (minStamp : Int) (c1 : C) (c2s : List C) : List C :=
  let cst0 := updFlags (fun _ => GFlags.zero) c1 ancOneFlag
  let cstInit := c2s.foldl (fun cs c2 => updFlags cs c2 ((cs c2).lor ancTwoFlag)) cst0
  let wlst0 := (stamp c1, c1) :: c2s.map (fun c2 => (stamp c2, c2))
  let fin := lcasLoop parents stamp minStamp fuel ⟨wlst0, cstInit, []⟩
  (sortByStamp (lcasResults fin.cstates fin.cands)).map (fun p => p.2)

/-- Ancestry in the commit graph: `Anc parents c x` holds when `x` is
reachable from `c` along parent links (reflexively), i.e. `x` is an
ancestor of `c`. -/
def Anc {C : Type} (parents : C → List C) (c x : C) : Prop :=
  Relation.ReflTransGen (fun u v => v ∈ parents u) c x

/-- A dulwich `TreeEntry` namedtuple `(path, mode, sha)`; any component may
be Python `None` (as in the `NO_ENTRY = TreeEntry(None, None, None)`
sentinel of merge.py). -/
structure PTreeEntry where
  path : Option String
  mode : Option Nat
  sha : Option String
deriving DecidableEq, Repr

/-- The `NO_ENTRY` sentinel of merge.py. -/
def NO_ENTRY : PTreeEntry := ⟨none, none, none⟩

/-- A dulwich `TreeChange` namedtuple `(type, old, new)`; absent sides are
the null entry, exactly as `dulwich.diff_tree` produces them. -/
structure PTreeChange where
  ctype : String
  old : PTreeEntry
  new : PTreeEntry
deriving DecidableEq, Repr

/-- A party recorded in a `MergeConflict` slot: merge.py stores `None`, a
`TreeEntry`, or (in the both-add branch) a whole `TreeChange` there. -/
inductive CParty where
  | pnone : CParty
  | pentry : PTreeEntry → CParty
  | pchange : PTreeChange → CParty
deriving DecidableEq, Repr

/-- The `MergeConflict` namedtuple of merge.py.  The `message` strings of
the source are `%`-formatted; they are modelled by fixed abbreviated texts
(no theorem inspects messages). -/
structure PMergeConflict where
  conflict_type : String
  this_entry : CParty
  other_entry : CParty
  base_entry : CParty
  message : String
deriving DecidableEq, Repr

/-- `.path` of a conflict party (used by `add_chunk_conflict`, which always
receives an actual entry there; other parties yield `None`). -/
def partyPath : CParty → Option String
  | CParty.pentry e => e.path
  | _ => none

/-- A flat model of a stored git tree: a list of `(path, mode, sha)`
entries.  Nested trees of the source are flattened to full-path entries
exactly as `tree_entry_iterator`/`create_and_store_merged_tree` convert
between the two shapes; a tree is canonical when its paths are sorted and
duplicate-free. -/
abbrev TreeV := List (String × Nat × String)

/-- Commit data as read by merge.py: primary tree CID, parent CIDs and the
commit timestamp. -/
structure CommitData where
  tree : String
  parents : List String
  commit_time : Int
deriving DecidableEq, Repr

/-- An object in the content-addressed store. -/
inductive StoreObj where
  | blobObj : Bytes → StoreObj
  | treeObj : TreeV → StoreObj
  | commitObj : CommitData → StoreObj
deriving DecidableEq, Repr

/-- The object store: CID to object. -/
abbrev Store := String → Option StoreObj

/-- Insert an object. -/
def storeAdd (s : Store) (k : String) (v : StoreObj) : Store :=
  fun x => if x = k then some v else s x

/-- `_remove_loose_object`. -/
def storeRemove (s : Store) (k : String) : Store :=
  fun x => if x = k then none else s x

/-- A repository: its object store plus a counter supplying fresh ids for
virtual commits (`do_commit` creates a new commit object whose id is a
hash; freshness is what the merge logic relies on). -/
structure Repo where
  store : Store
  fresh : Nat

/-- Commit lookup; missing ids raise in Python and are unreached by the
theorems below (modelled by a null commit). -/
def repoCommitData (repo : Repo) (cid : String) : CommitData :=
  match repo.store cid with
  | some (StoreObj.commitObj c) => c
  | _ => ⟨"", [], 0⟩

/-- Tree value of a commit (`repo.object_store[c].tree` followed by the
tree lookup). -/
def repoTreeOf (repo : Repo) (cid : String) : TreeV :=
  match repo.store ((repoCommitData repo cid).tree) with
  | some (StoreObj.treeObj t) => t
  | _ => []

/-- Blob contents (`object_store[sha].as_raw_string()`); missing blobs
raise in Python and are unreached below. -/
def storeBlobContent (store : Store) (sha : Option String) : Bytes :=
  match sha with
  | some s =>
    match store s with
    | some (StoreObj.blobObj b) => b
    | _ => []
  | none => []

/-- First-match lookup of a path in a flat tree. -/
def tlookup (t : TreeV) (p : String) : Option (Nat × String) :=
  match t.find? (fun e => e.1 = p) with
  | some e => some (e.2.1, e.2.2)
  | none => none

/-- Lexicographic byte order (the order Python applies when sorting byte
strings, and the CID order referred to by the spec). -/
def lexLt : List Char → List Char → Bool
  | [], [] => false
  | [], _ :: _ => true
  | _ :: _, [] => false
  | a :: as, b :: bs => if a = b then lexLt as bs else decide (a < b)

/-- Lexicographic byte order on path/CID strings. -/
def strLt (a b : String) : Bool := lexLt a.data b.data

/-- Insert a path into a sorted duplicate-free path list. -/
def insPath (x : String) : List String → List String
  | [] => [x]
  | y :: ys =>
    if x = y then y :: ys else if strLt x y then x :: y :: ys else y :: insPath x ys

/-- Sort paths ascending and drop duplicates (Python dict keys plus
`paths.sort()`). -/
def sortDedupPaths : List String → List String
  | [] => []
  | x :: xs => insPath x (sortDedupPaths xs)

/-- Last write wins: the value a Python dict holds for a key after all the
listed assignments. -/
def lastWrite (ws : TreeV) (p : String) : Option (Nat × String) :=
  match (ws.filter (fun e => e.1 = p)).getLast? with
  | some e => some (e.2.1, e.2.2)
  | none => none

/-- Canonicalize a list of tree-entry writes into a tree: last write per
path, paths sorted.  This is the flat-model counterpart of the dict of
dicts built by `create_and_store_merged_tree`. -/
def canonTreeEntries (entries : TreeV) : TreeV :=
  (sortDedupPaths (entries.map (fun e => e.1))).filterMap
    (fun p => (lastWrite entries p).map (fun ms => (p, ms.1, ms.2)))

/-- Decimal digits of a natural number (fueled so that it stays reducible
by the kernel; the fuel `n + 1` always suffices). -/
def natToChars : Nat → Nat → List Char
  | 0, _ => []
  | fuel + 1, n =>
    if n < 10 then [Char.ofNat (48 + n)]
    else natToChars fuel (n / 10) ++ [Char.ofNat (48 + n % 10)]

/-- Decimal rendering of a natural number. -/
def natRepr (n : Nat) : String := String.mk (natToChars (n + 1) n)

/-- Injective encoding of canonical tree content used as its CID
(content-addressed store: CID equality coincides with content equality). -/
def encodeTree (t : TreeV) : String :=
  "T:" ++ String.intercalate ";"
    (t.map (fun e => e.1 ++ "|" ++ natRepr e.2.1 ++ "|" ++ e.2.2))

/-- Blob CID from blob content. -/
def encodeBlob (b : Bytes) : String := "B:" ++ String.mk b

/-- Port of `create_and_store_merged_tree` (merge.py, lines 76-117) in the
flat tree model: canonicalize the entry writes, store the tree under its
content CID and return the CID. -/
def createAndStoreMergedTree (store : Store) (entries : TreeV) : String × Store :=
  let t := canonTreeEntries entries
  (encodeTree t, storeAdd store (encodeTree t) (StoreObj.treeObj t))

/-- Modelled from the spec: `changes_between(tree_a, tree_b)`
(`dulwich.diff_tree.tree_changes`, an external collaborator; merge.py calls
it without a rename detector and without unchanged entries).  Section 3:
the diff of two trees yields per-path changes tagged ADD / DELETE / MODIFY
carrying the old and new entries, with the missing side a null entry. -/
def changesBetween (t1 t2 : TreeV) : List PTreeChange :=
  (sortDedupPaths (t1.map (fun e => e.1) ++ t2.map (fun e => e.1))).filterMap
    (fun p =>
      match tlookup t1 p, tlookup t2 p with
      | some a, some b =>
        if a = b then none
        else some ⟨"modify", ⟨some p, some a.1, some a.2⟩, ⟨some p, some b.1, some b.2⟩⟩
      | some a, none => some ⟨"delete", ⟨some p, some a.1, some a.2⟩, NO_ENTRY⟩
      | none, some b => some ⟨"add", NO_ENTRY, ⟨some p, some b.1, some b.2⟩⟩
      | none, none => none)

/-- The dict comprehensions of `merge_tree`: `{key(change): change for
change in changes}` followed by `.get(k)`.  (The `if change.old` /
`if change.new` guards are vacuous: the null entry is a namedtuple and
namedtuples are always truthy in Python.)  A Python dict keeps the last
binding of each key. -/
def dictGetLast (cs : List PTreeChange) (key : PTreeChange → Option String)
    (k : Option String) : Option PTreeChange :=
  (cs.filter (fun c => key c = k)).getLast?

/-- The comparison `this_entry != other_change.new` in the ADD/COPY branch
of `merge_tree` compares a `TreeChange` tuple against a `TreeEntry` tuple;
their first components are a change-type `str` and a path `bytes` (or
`None`), which never compare equal in Python 3, so the equality is always
false. -/
def changeEqEntry (_c : PTreeChange) (_e : PTreeEntry) : Bool := false

/-- Modelled from the spec: `is_binary` (`dulwich.patch`, an external
collaborator).  Section 6: a blob is binary iff a NUL byte appears in its
first 8 KiB. -/
def isBinary (content : Bytes) : Bool := (content.take 8192).contains (Char.ofNat 0)

/-- File-merger callback type: `(this, other, base, strategy)` to merged
bytes plus conflict ranges (the `do_file_merge_*` functions fit it). -/
abbrev FileMerger := Bytes → Bytes → Bytes → String → Bytes × List CRange

/-- The `MergeOptions` namedtuple of merge.py. -/
structure MOptions where
  file_merger : Option FileMerger
  rename_detector : Option Unit
  strategy : String

/-- Port of `_merge_entry` (merge.py, lines 215-274).  The store is
threaded explicitly because the merged blob is added to it.  In the
no-file-merger branch the source evaluates `other_entry.old`, an attribute
a `TreeEntry` does not have (AttributeError); the slot is modelled as the
null party, and no theorem exercises that branch. -/
def mergeEntry (mo : MOptions) (new_path : Option String) (store : Store)
    (this_entry other_entry base_entry : PTreeEntry) :
    (PTreeEntry × List PMergeConflict) × Store :=
  if this_entry.sha = other_entry.sha then ((this_entry, []), store)
  else
    match mo.file_merger with
    | none =>
      ((NO_ENTRY, [⟨"structure", CParty.pentry this_entry, CParty.pentry other_entry,
        CParty.pnone, "Conflict but no file merger provided"⟩]), store)
    | some fm =>
      let this_content := storeBlobContent store this_entry.sha
      let other_content := storeBlobContent store other_entry.sha
      let base_content := storeBlobContent store base_entry.sha
      if isBinary this_content || isBinary other_content || isBinary base_content then
        if ¬(this_content = other_content) then
          if mo.strategy = "ort-ours" then
            ((⟨this_entry.path, this_entry.mode, this_entry.sha⟩, []), store)
          else if mo.strategy = "ort-theirs" then
            ((⟨other_entry.path, other_entry.mode, other_entry.sha⟩, []), store)
          else
            ((NO_ENTRY, [⟨"structure", CParty.pentry this_entry, CParty.pentry other_entry,
              CParty.pentry base_entry,
              "3 way diff and merge of binary files not supported"⟩]), store)
        else ((⟨this_entry.path, this_entry.mode, this_entry.sha⟩, []), store)
      else
        let mr := fm this_content other_content base_content mo.strategy
        let chunk_conflicts := mr.2.map
          (fun _r => (⟨"chunk", CParty.pentry this_entry, CParty.pentry other_entry,
            CParty.pentry base_entry, "chunk conflict in line ranges"⟩ : PMergeConflict))
        let bid := encodeBlob mr.1
        let store2 := storeAdd store bid (StoreObj.blobObj mr.1)
        if this_entry.mode = base_entry.mode ∨ this_entry.mode = other_entry.mode then
          ((⟨new_path, other_entry.mode, some bid⟩, chunk_conflicts), store2)
        else if ¬(base_entry.mode = other_entry.mode) then
          ((NO_ENTRY, [⟨"ni", CParty.pentry this_entry, CParty.pentry other_entry,
            CParty.pentry base_entry, "tree entry mode changes are not supported"⟩]), store2)
        else
          ((⟨new_path, this_entry.mode, some bid⟩, chunk_conflicts), store2)

/-- One iteration of the `merge_tree` generator body (merge.py, lines
292-362) for a single change from the other side; returns the yielded
pairs and the possibly grown store.  The `'ni'` conflicts of the source
reference the local variable `this_entry`, which at those points may be
unbound (NameError) or hold a leftover `TreeChange`; the slots are
modelled as null parties, and no theorem exercises those branches. -/
def mergeTreeStep (mo : MOptions) (store : Store) (changes_this : List PTreeChange)
    (oc : PTreeChange) : List (PTreeEntry × List PMergeConflict) × Store :=
  let this_change := dictGetLast changes_this (fun c => c.old.path) oc.old.path
  if this_change = some oc then ([], store)
  else if oc.ctype = "add" ∨ oc.ctype = "copy" then
    match dictGetLast changes_this (fun c => c.new.path) oc.new.path with
    | none => ([(oc.new, [])], store)
    | some tc =>
      if ¬(changeEqEntry tc oc.new = true) then
        ([(NO_ENTRY, [⟨"structure", CParty.pchange tc, CParty.pentry oc.new,
          CParty.pentry oc.old, "Both this and other add new file"⟩])], store)
      else ([], store)
  else if oc.ctype = "delete" then
    match this_change with
    | some tc =>
      if ¬(tc.ctype = "delete" ∨ tc.ctype = "unchanged") then
        ([(NO_ENTRY, [⟨"structure", CParty.pentry tc.new, CParty.pentry oc.new,
          CParty.pentry oc.old, "deleted in other but modified in this"⟩])], store)
      else ([(⟨oc.old.path, none, none⟩, [])], store)
    | none => ([(⟨oc.old.path, none, none⟩, [])], store)
  else if oc.ctype = "rename" then
    match this_change with
    | some tc =>
      if tc.ctype = "rename" then
        if ¬(tc.new.path = oc.new.path) then
          ([(NO_ENTRY, [⟨"structure", CParty.pentry tc.new, CParty.pentry oc.new,
            CParty.pentry oc.old, "renamed by both sides"⟩])], store)
        else
          let r := mergeEntry mo oc.new.path store tc.new oc.new oc.old
          ([r.1], r.2)
      else if tc.ctype = "modify" then
        let r := mergeEntry mo oc.new.path store tc.new oc.new oc.old
        ([r.1], r.2)
      else if tc.ctype = "delete" then
        ([(NO_ENTRY, [⟨"structure", CParty.pentry tc.new, CParty.pentry oc.new,
          CParty.pentry oc.old, "deleted in this but renamed in other"⟩])], store)
      else
        ([(NO_ENTRY, [⟨"ni", CParty.pnone, CParty.pnone, CParty.pnone,
          "Not Implemented"⟩])], store)
    | none => ([(oc.new, [])], store)
  else if oc.ctype = "modify" then
    match this_change with
    | some tc =>
      if tc.ctype = "delete" then
        ([(NO_ENTRY, [⟨"structure", CParty.pentry tc.new, CParty.pentry oc.new,
          CParty.pentry oc.old, "deleted in this but modified in other"⟩])], store)
      else if tc.ctype = "modify" ∨ tc.ctype = "rename" then
        let r := mergeEntry mo tc.new.path store tc.new oc.new oc.old
        ([r.1], r.2)
      else
        ([(NO_ENTRY, [⟨"ni", CParty.pnone, CParty.pnone, CParty.pnone,
          "Not Implemented"⟩])], store)
    | none => ([(oc.new, [])], store)
  else
    ([(NO_ENTRY, [⟨"ni", CParty.pnone, CParty.pnone, CParty.pnone,
      "Not Implemented"⟩])], store)

/-- Port of `merge_tree` (merge.py, lines 277-362): fold the other-side
changes through `mergeTreeStep`, collecting the yielded pairs in order and
threading the store. -/
def mergeTree (store : Store) (mo : MOptions) (this_tree other_tree common_tree : TreeV) :
    List (PTreeEntry × List PMergeConflict) × Store :=
  let changes_this := changesBetween common_tree this_tree
  (changesBetween common_tree other_tree).foldl
    (fun acc oc =>
      let r := mergeTreeStep mo acc.2 changes_this oc
      (acc.1 ++ r.1, r.2))
    ([], store)

/-- Python truthiness of the optional path in `if entry.path and entry.mode
and entry.sha` (`None` and empty bytes are falsy). -/
def pathTruthy : Option String → Bool
  | none => false
  | some s => !s.isEmpty

/-- Python truthiness of the optional mode (`None` and `0` are falsy). -/
def modeTruthy : Option Nat → Bool
  | none => false
  | some n => n != 0

/-- Python truthiness of the optional sha. -/
def shaTruthy : Option String → Bool
  | none => false
  | some s => !s.isEmpty

/-- `entry.path and entry.mode and entry.sha`. -/
def entryTruthy (e : PTreeEntry) : Bool :=
  pathTruthy e.path && modeTruthy e.mode && shaTruthy e.sha

/-- The `MergeResults` record of merge.py (result-bearing fields only; the
iterator helpers are list traversals). -/
structure PMergeResults where
  structure_conflicts : List PMergeConflict
  chunk_conflicts : List PMergeConflict
  hand_merge_set : List (Option String)
  updated_tree_entries : List PTreeEntry
  tree_id : Option String
deriving DecidableEq, Repr

/-- The empty `MergeResults()`. -/
def emptyResults : PMergeResults := ⟨[], [], [], [], none⟩

/-- Port of `_updated_tree_entries_with_changes` (merge.py, lines 120-132):
overlay the updated entries onto this-tree's entries (dict semantics, last
write wins) and emit the result sorted by path.  Updated entries reaching
this point passed the truthiness filter, so their fields are present; the
defaults below are never used. -/
def updatedTreeEntriesWithChanges (thisTree : TreeV) (upd : List PTreeEntry) : TreeV :=
  canonTreeEntries
    (thisTree ++ upd.map (fun e => (e.path.getD "", e.mode.getD 0, e.sha.getD "")))

/-- Port of `_create_virtual_tree_commit` (merge.py, lines 135-153):
`do_commit` stores a fresh commit with the two parents and returns its id.
The commit hash is modelled by a fresh id from the repository counter; the
timestamp of the synthetic commit is not consulted by the merge logic and
is modelled as 0. -/
def createVirtualTreeCommit (repo : Repo) (tree_id p1 p2 : String) : String × Repo :=
  let cid := "vcommit:" ++ natRepr repo.fresh
  (cid, ⟨storeAdd repo.store cid (StoreObj.commitObj ⟨tree_id, [p1, p2], 0⟩),
    repo.fresh + 1⟩)

/-- Port of `find_merge_base` (graph_fixed.py, lines 105-132) on the repo
model: degenerate lists short-circuit, otherwise `_find_lcas` runs with the
repository parent and stamp lookups and `min_stamp = 0`. -/
def findMergeBase (fuel : Nat) (repo : Repo) (commit_ids : List String) : List String :=
  match commit_ids with
  | [] => []
  | c1 :: rest =>
    if rest.isEmpty then [c1]
    else if rest.contains c1 then [c1]
    else findLcas fuel (fun c => (repoCommitData repo c).parents)
      (fun c => (repoCommitData repo c).commit_time) 0 c1 rest

/-- Port of `_create_virtual_merge_base_internal` (merge.py, lines
172-212), with explicit recursion fuel.  `None` models the `-1` failure
return; popping from an empty LCA list raises IndexError in Python and is
also modelled as failure.  The source checks each yielded conflict as the
`merge_tree` generator runs and aborts at the first structural one; here
the walk is completed first and then checked, which returns the same value
(surplus merged blobs may remain in the store on the failure path, which
nothing observes).  Returns the virtual base id, the updated repository
and the virtual commits created. -/
def createVirtualMergeBaseInternal (mo : MOptions) :
    Nat → Repo → String → String → Option (String × Repo × List String)
  | 0, _, _, _ => none
  | fuel + 1, repo, b1, b2 =>
    let lcas0 := (findMergeBase (fuel + 1) repo [b1, b2]).reverse
    match lcas0 with
    | [] => none
    | base0 :: rest =>
      let s1 :=
        if base0.isEmpty then
          let ct := createAndStoreMergedTree repo.store []
          let vc := createVirtualTreeCommit ⟨ct.2, repo.fresh⟩ ct.1 b1 b2
          (vc.1, vc.2, [vc.1])
        else (base0, repo, ([] : List String))
      let folded := rest.foldl
        (fun acc cmt =>
          match acc with
          | none => none
          | some st =>
            match createVirtualMergeBaseInternal mo fuel st.2.1 st.1 cmt with
            | none => none
            | some st2 => some (st2.1, st2.2.1, st.2.2 ++ st2.2.2))
        (some s1)
      match folded with
      | none => none
      | some st =>
        if st.1.isEmpty then none
        else
          let rp := st.2.1
          let mt := mergeTree rp.store mo (repoTreeOf rp b1) (repoTreeOf rp b2)
            (repoTreeOf rp st.1)
          if mt.1.any (fun ec => ec.2.any
              (fun c => c.conflict_type = "structure" ∨ c.conflict_type = "ni")) then
            none
          else
            let entries := (mt.1.filter (fun ec => entryTruthy ec.1)).map (fun ec => ec.1)
            let merged := updatedTreeEntriesWithChanges (repoTreeOf rp b1) entries
            let ct := createAndStoreMergedTree mt.2 merged
            let vc := createVirtualTreeCommit ⟨ct.2, rp.fresh⟩ ct.1 b1 b2
            some (vc.1, vc.2, st.2.2 ++ [vc.1])

/-- Port of `_create_virtual_merge_base_for_lcas` (merge.py, lines
156-169): pop the newest LCA as the running base and fold the remaining
ones through the recursive virtual-base construction. -/
def createVirtualMergeBaseForLcas (fuel : Nat) (repo : Repo) (mo : MOptions)
    (lcas : List String) : Option (String × Repo × List String) :=
  match lcas with
  | [] => none
  | base0 :: rest =>
    if base0.isEmpty then none
    else
      let folded := rest.foldl
        (fun acc cmt =>
          match acc with
          | none => none
          | some st =>
            match createVirtualMergeBaseInternal mo fuel st.2.1 st.1 cmt with
            | none => none
            | some st2 => some (st2.1, st2.2.1, st.2.2 ++ st2.2.2))
        (some (base0, repo, ([] : List String)))
      match folded with
      | none => none
      | some st => if st.1.isEmpty then none else some st

/-- Port of `merge` (merge.py, lines 406-528).  Working-directory writes,
staging, index conflict records and console prints are external I/O
excluded from the core (spec sections 1 and 9) and do not affect the
returned `MergeResults`; everything else — input validation, merge-base
selection with the empty-tree and virtual-base fallbacks, the tree walk,
conflict accumulation, the truthiness filter on updated entries, the final
tree construction and the virtual-commit cleanup — is modelled.  On a
failed virtual-base synthesis the source still remembers the virtual
commits created during the attempt for cleanup; the model drops them
(nothing below observes that part of the store). -/
def merge (fuel : Nat) (repo : Repo) (mo : MOptions) (commit_ids : List String) :
    PMergeResults × Repo :=
  if ¬(commit_ids.length = 2) then
    ({ emptyResults with structure_conflicts :=
      [⟨"structure", CParty.pnone, CParty.pnone, CParty.pnone,
        "can only merge two commits"⟩] }, repo)
  else
    let this_commit := commit_ids.headD ""
    let other_commit := (commit_ids.drop 1).headD ""
    let lcas0 := findMergeBase fuel repo [this_commit, other_commit]
    let st1 :=
      if lcas0.isEmpty then
        let ct := createAndStoreMergedTree repo.store []
        let vc := createVirtualTreeCommit ⟨ct.2, repo.fresh⟩ ct.1 this_commit other_commit
        ([vc.1], vc.2, [vc.1])
      else (lcas0, repo, ([] : List String))
    let lcas := st1.1
    let repo1 := st1.2.1
    let vcommits0 := st1.2.2
    let merge_base0 := lcas.getLastD ""
    let st2 :=
      if 1 < lcas.length ∧ (mo.strategy = "ort" ∨ mo.strategy = "ort-ours" ∨
          mo.strategy = "ort-theirs" ∨ mo.strategy = "recursive") then
        match createVirtualMergeBaseForLcas fuel repo1 mo lcas.reverse with
        | some st => (st.1, st.2.1, vcommits0 ++ st.2.2)
        | none => (merge_base0, repo1, vcommits0)
      else (merge_base0, repo1, vcommits0)
    let merge_base := st2.1
    let repo2 := st2.2.1
    let vcommits := st2.2.2
    let this_tree := repoTreeOf repo2 this_commit
    let other_tree := repoTreeOf repo2 other_commit
    let base_tree := repoTreeOf repo2 merge_base
    let mt := mergeTree repo2.store mo this_tree other_tree base_tree
    let repo3 : Repo := ⟨mt.2, repo2.fresh⟩
    let res0 := mt.1.foldl
      (fun r ec =>
        let r1 := ec.2.foldl
          (fun r c =>
            if c.conflict_type = "structure" ∨ c.conflict_type = "ni" then
              { r with structure_conflicts := r.structure_conflicts ++ [c] }
            else
              { r with
                chunk_conflicts := r.chunk_conflicts ++ [c]
                hand_merge_set := r.hand_merge_set ++ [partyPath c.this_entry] })
          r
        if entryTruthy ec.1 then
          { r1 with updated_tree_entries := r1.updated_tree_entries ++ [ec.1] }
        else r1)
      emptyResults
    let st3 :=
      if res0.structure_conflicts.isEmpty then
        let merged := updatedTreeEntriesWithChanges this_tree res0.updated_tree_entries
        let ct := createAndStoreMergedTree repo3.store merged
        ({ res0 with tree_id := some ct.1 }, (⟨ct.2, repo3.fresh⟩ : Repo))
      else (res0, repo3)
    let finalRepo : Repo :=
      ⟨vcommits.foldl (fun s v => storeRemove s v) st3.2.store, st3.2.fresh⟩
    (st3.1, finalRepo)

/-! ### Concrete repositories and graphs used by witnesses and counterexamples -/

/-- Base tree holding files `f` and `g` (mode 33188 = regular file). -/
def treeO : TreeV := [("f", 33188, "bf"), ("g", 33188, "bg")]

/-- The base tree with `f` deleted. -/
def treeB : TreeV := [("g", 33188, "bg")]

/-- Store of a three-commit repository: root commit `O` with `treeO`,
commit `A` (child of `O`, same tree) and commit `B` (child of `O`, tree
with `f` deleted); blobs are plain text. -/
def storeOAB : Store := fun k =>
  if k = "O" then some (StoreObj.commitObj ⟨encodeTree treeO, [], 1⟩)
  else if k = "A" then some (StoreObj.commitObj ⟨encodeTree treeO, ["O"], 2⟩)
  else if k = "B" then some (StoreObj.commitObj ⟨encodeTree treeB, ["O"], 3⟩)
  else if k = encodeTree treeO then some (StoreObj.treeObj treeO)
  else if k = encodeTree treeB then some (StoreObj.treeObj treeB)
  else if k = "bf" then some (StoreObj.blobObj (bstr "x\n"))
  else if k = "bg" then some (StoreObj.blobObj (bstr "y\n"))
  else none

/-- The repository over `storeOAB`. -/
def repoOAB : Repo := ⟨storeOAB, 0⟩

/-- Merge options with the myers file merger and the default `ort`
strategy. -/
def moOrt : MOptions := ⟨some doFileMergeMyers, none, "ort"⟩

/-- Merge options with an unknown strategy string. -/
def moBogus : MOptions := ⟨some doFileMergeMyers, none, "bogus"⟩

/-- Parent lookup of a five-commit graph: tips 1 and 2 both have parents
3 and 4; 3's parent is 5; 5's parent is 4. -/
def cexParents : Nat → List Nat
  | 1 => [3, 4]
  | 2 => [3, 4]
  | 3 => [5]
  | 5 => [4]
  | _ => []

/-- Timestamps for `cexParents`: the intermediate commit 5 is older than
its parent 4, which the search pops before 3. -/
def cexStamps : Nat → Int
  | 1 => 10
  | 2 => 9
  | 4 => 8
  | 3 => 7
  | 5 => 1
  | _ => 0

/-! ### C1 -/

/-- C1: with disjoint change sets — this side unchanged, other side only
deletes `f` — the merge reports no conflicts, but the recorded merged tree
is `this`'s tree, still containing `f`: the deletion entry
`(path, None, None)` emitted by `merge_tree` is filtered out by the
truthiness test in `merge` and never applied, contradicting the claim that
the merged tree equals the base with both change sets applied (with `f`
absent). -/
theorem merge_deletion_lost_on_failing_input :
    (merge 100 repoOAB moOrt ["A", "B"]).1.structure_conflicts = [] ∧
    (merge 100 repoOAB moOrt ["A", "B"]).1.chunk_conflicts = [] ∧
    (merge 100 repoOAB moOrt ["A", "B"]).1.tree_id = some (encodeTree treeO) ∧
    tlookup treeO "f" = some (33188, "bf") ∧
    ¬(encodeTree treeO = encodeTree treeB) := by
  refine ⟨by decide, by decide, by decide, by decide, by decide⟩

/-! ### C2 -/

/-- C2: `Merge3Way._write_chunk` resolves an unstable chunk exactly as
claimed: equal-all emits the base bytes, a change on one side wins over an
unchanged side, identical changes win over the base, and when all three
sub-byte-strings differ the `ort-ours`/`resolve-ours` strategies emit the
alice bytes, `ort-theirs`/`resolve-theirs` emit the bob bytes, and any
other strategy records the conflict ranges and emits the diff3 markup with
nine-character marker runs, a trailing space after `=========`, and a
single newline ending each marker line. -/
theorem writeChunk_cases (olines alines blines : List Bytes) (strategy : String)
    (orange arange brange : Nat × Nat) :
    (joinRange olines orange = joinRange alines arange ∧
        joinRange olines orange = joinRange blines brange →
      writeChunk olines alines blines strategy orange arange brange =
        (joinRange olines orange, [])) ∧
    (joinRange olines orange = joinRange alines arange ∧
        ¬(joinRange olines orange = joinRange blines brange) →
      writeChunk olines alines blines strategy orange arange brange =
        (joinRange blines brange, [])) ∧
    (joinRange olines orange = joinRange blines brange ∧
        ¬(joinRange olines orange = joinRange alines arange) →
      writeChunk olines alines blines strategy orange arange brange =
        (joinRange alines arange, [])) ∧
    (joinRange alines arange = joinRange blines brange ∧
        ¬(joinRange olines orange = joinRange alines arange) →
      writeChunk olines alines blines strategy orange arange brange =
        (joinRange alines arange, [])) ∧
    (¬(joinRange olines orange = joinRange alines arange) ∧
        ¬(joinRange olines orange = joinRange blines brange) ∧
        ¬(joinRange alines arange = joinRange blines brange) →
      ((strategy = "ort-ours" ∨ strategy = "resolve-ours" →
        writeChunk olines alines blines strategy orange arange brange =
          (joinRange alines arange, [])) ∧
      (strategy = "ort-theirs" ∨ strategy = "resolve-theirs" →
        writeChunk olines alines blines strategy orange arange brange =
          (joinRange blines brange, [])) ∧
      (¬(strategy = "ort-ours" ∨ strategy = "resolve-ours") →
        ¬(strategy = "ort-theirs" ∨ strategy = "resolve-theirs") →
        writeChunk olines alines blines strategy orange arange brange =
          (conflictMarkup (joinRange alines arange) (joinRange olines orange)
            (joinRange blines brange), [(orange, arange, brange)])))) := by
  simp only [writeChunk]
  generalize joinRange olines orange = oc
  generalize joinRange alines arange = ac
  generalize joinRange blines brange = bc
  refine ⟨?_, ?_, ?_, ?_, ?_⟩
  · rintro ⟨h1, h2⟩
    subst h1
    subst h2
    simp [resolveChunk]
  · rintro ⟨h1, h2⟩
    subst h1
    simp [resolveChunk, h2]
  · rintro ⟨h1, h2⟩
    subst h1
    simp [resolveChunk, h2]
  · rintro ⟨h1, h2⟩
    subst h1
    simp [resolveChunk, h2]
  · rintro ⟨h1, h2, h3⟩
    refine ⟨?_, ?_, ?_⟩
    · intro hs
      simp [resolveChunk, h1, h2, h3, hs]
    · intro hs
      have hno : ¬(strategy = "ort-ours" ∨ strategy = "resolve-ours") := by
        rcases hs with hs | hs <;> simp [hs]
      simp [resolveChunk, h1, h2, h3, hs, hno]
    · intro hs1 hs2
      simp [resolveChunk, h1, h2, h3, hs1, hs2]

/-- Witness for `writeChunk_cases`: at concrete one-line inputs where all
three chunks differ and the strategy is `ort`, the markup and the recorded
conflict come out exactly as computed. -/
theorem writeChunk_cases_witness :
    writeChunk [bstr "o\n"] [bstr "a\n"] [bstr "b\n"] "ort" (0, 2) (0, 2) (0, 2) =
      (bstr "<<<<<<<<< alice\na\n||||||||| ancestor\no\n========= \nb\n>>>>>>>>> bob\n",
        [((0, 2), (0, 2), (0, 2))]) := by
  have h := (writeChunk_cases [bstr "o\n"] [bstr "a\n"] [bstr "b\n"] "ort"
    (0, 2) (0, 2) (0, 2)).2.2.2.2
  have h2 := (h (by refine ⟨by decide, by decide, by decide⟩)).2.2
    (by decide) (by decide)
  rw [h2]
  refine Prod.ext ?_ rfl
  decide

/-! ### C3 -/

/-- C3 counterexample: with the unknown strategy string `bogus` the
orchestrator does not reject the merge — merging commit `A` with itself
yields no structural conflict and a merged-tree CID, contradicting the
claimed single STRUCTURAL `unknown-strategy` conflict with no tree CID. -/
theorem merge_unknown_strategy_accepted :
    (merge 100 repoOAB moBogus ["A", "A"]).1.structure_conflicts = [] ∧
    (merge 100 repoOAB moBogus ["A", "A"]).1.tree_id = some (encodeTree treeO) := by
  refine ⟨by decide, by decide⟩

/-- C3 (amended): the orchestrator performs no strategy validation — an
unknown strategy string is accepted and treated as a non-recursive default;
the only input validation is the commit count, which for any list of
length ≠ 2 yields exactly one STRUCTURAL conflict and no merged-tree CID. -/
theorem merge_commit_count_validation (fuel : Nat) (repo : Repo) (mo : MOptions)
    (commit_ids : List String) (h : ¬(commit_ids.length = 2)) :
    (merge fuel repo mo commit_ids).1 =
      { emptyResults with structure_conflicts :=
        [⟨"structure", CParty.pnone, CParty.pnone, CParty.pnone,
          "can only merge two commits"⟩] } := by
  simp [merge, h]

/-- Witness for `merge_commit_count_validation` at the empty commit list. -/
theorem merge_commit_count_validation_witness :
    (merge 100 repoOAB moOrt []).1 =
      { emptyResults with structure_conflicts :=
        [⟨"structure", CParty.pnone, CParty.pnone, CParty.pnone,
          "can only merge two commits"⟩] } :=
  merge_commit_count_validation 100 repoOAB moOrt [] (by decide)

/-! ### C8 -/

/-- C8: the myers and histogram entry points merge against the supplied
non-empty base, but `do_file_merge_ndiff` never does: its guard reads
`if not ancestor == 0:`, which is always true for a byte string, so the
supplied base `x\n` is replaced by the synthesized common ancestor (empty
here, as `a\n` and `b\n` share no line).  The myers merge of the same
inputs shows the base line `x\n` inside the ancestor section and a base
range covering one line, while the ndiff merge emits an empty ancestor
section and a base range covering zero lines. -/
theorem doFileMergeNdiff_replaces_supplied_base :
    doFileMergeMyers (bstr "a\n") (bstr "b\n") (bstr "x\n") "ort" =
      (bstr "<<<<<<<<< alice\na\n||||||||| ancestor\nx\n========= \nb\n>>>>>>>>> bob\n",
        [((0, 2), (0, 2), (0, 2))]) ∧
    doFileMergeNdiff (bstr "a\n") (bstr "b\n") (bstr "x\n") "ort" =
      (bstr "<<<<<<<<< alice\na\n||||||||| ancestor\n========= \nb\n>>>>>>>>> bob\n",
        [((0, 1), (0, 2), (0, 2))]) := by
  refine ⟨by decide, by decide⟩

/-! ### C9 -/

/-- C9 counterexample: two entries share the greatest timestamp 5; the
claimed CID-lexicographic tie-break would pop `(5, "a")`, but `plist_get`
pops the first-inserted entry `(5, "b")`. -/
theorem plistGet_tie_break_example :
    plistGet [((5 : Int), "b"), ((5 : Int), "a")] = ((5, "b"), [(5, "a")]) ∧
    ¬(plistGet [((5 : Int), "b"), ((5 : Int), "a")] = ((5, "a"), [(5, "b")])) ∧
    strLt "a" "b" = true := by
  refine ⟨by decide, by decide, by decide⟩

/-! ### C10 -/

/-- C10: `find_merge_base` short-circuits the degenerate inputs without
consulting the commit graph: the empty list maps to the empty list, a
singleton maps to itself, and when the first commit reoccurs among the
rest the result is exactly that first commit — for every repository and
every fuel value. -/
theorem findMergeBase_degenerate_cases (fuel : Nat) (repo : Repo) (c1 : String)
    (rest : List String) (h : c1 ∈ rest) :
    findMergeBase fuel repo [] = [] ∧
    findMergeBase fuel repo [c1] = [c1] ∧
    findMergeBase fuel repo (c1 :: rest) = [c1] := by
  refine ⟨rfl, by simp [findMergeBase], ?_⟩
  have hne : ¬rest.isEmpty := by
    cases rest with
    | nil => cases h
    | cons a l => simp
  have hc : rest.contains c1 = true := by
    simpa using List.elem_eq_true_of_mem h
  simp only [findMergeBase]
  rw [if_neg (by simpa using hne), if_pos hc]

/-- Witness for `findMergeBase_degenerate_cases` on the concrete
repository with `c1 = "A"` occurring in the remainder. -/
theorem findMergeBase_degenerate_cases_witness :
    findMergeBase 100 repoOAB [] = [] ∧
    findMergeBase 100 repoOAB ["A"] = ["A"] ∧
    findMergeBase 100 repoOAB ["A", "B", "A"] = ["A"] :=
  findMergeBase_degenerate_cases 100 repoOAB "A" ["B", "A"] (by decide)

/-! ### C6 -/

/-- Store with three distinct binary blobs (each contains a NUL byte in its
first 8 KiB). -/
def storeBin : Store := fun k =>
  if k = "b0" then some (StoreObj.blobObj (bstr "\x00base"))
  else if k = "b1" then some (StoreObj.blobObj (bstr "\x00alice"))
  else if k = "b2" then some (StoreObj.blobObj (bstr "\x00bob"))
  else none

/-- C6 counterexample: with strategy `resolve-ours`, differing binary
blobs are not resolved to this side's entry as claimed — `_merge_entry`
tests only `ort-ours`/`ort-theirs` and falls through to the structural
conflict. -/
theorem mergeEntry_binary_resolve_ours_conflicts :
    (mergeEntry ⟨some doFileMergeMyers, none, "resolve-ours"⟩ (some "f") storeBin
        ⟨some "f", some 33188, some "b1"⟩ ⟨some "f", some 33188, some "b2"⟩
        ⟨some "f", some 33188, some "b0"⟩).1 =
      (NO_ENTRY, [⟨"structure", CParty.pentry ⟨some "f", some 33188, some "b1"⟩,
        CParty.pentry ⟨some "f", some 33188, some "b2"⟩,
        CParty.pentry ⟨some "f", some 33188, some "b0"⟩,
        "3 way diff and merge of binary files not supported"⟩]) ∧
    ¬((mergeEntry ⟨some doFileMergeMyers, none, "resolve-ours"⟩ (some "f") storeBin
        ⟨some "f", some 33188, some "b1"⟩ ⟨some "f", some 33188, some "b2"⟩
        ⟨some "f", some 33188, some "b0"⟩).1 =
      (⟨some "f", some 33188, some "b1"⟩, [])) := by
  refine ⟨by decide, by decide⟩

/-- C6 (amended): when a delegated file merge involves a binary blob and
the two sides' contents differ, only the strategy `ort-ours` resolves to
this side's entry and only `ort-theirs` to the other side's; every other
strategy — including `resolve-ours` and `resolve-theirs` — produces the
structural binary-merge-unsupported conflict. -/
theorem mergeEntry_binary_strategy_cases (mo : MOptions) (fm : FileMerger)
    (new_path : Option String) (store : Store) (te oe be : PTreeEntry)
    (hsha : ¬(te.sha = oe.sha)) (hfm : mo.file_merger = some fm)
    (hbin : isBinary (storeBlobContent store te.sha) = true ∨
      isBinary (storeBlobContent store oe.sha) = true ∨
      isBinary (storeBlobContent store be.sha) = true)
    (hdiff : ¬(storeBlobContent store te.sha = storeBlobContent store oe.sha)) :
    (mo.strategy = "ort-ours" →
      (mergeEntry mo new_path store te oe be).1 = (⟨te.path, te.mode, te.sha⟩, [])) ∧
    (mo.strategy = "ort-theirs" →
      (mergeEntry mo new_path store te oe be).1 = (⟨oe.path, oe.mode, oe.sha⟩, [])) ∧
    (¬(mo.strategy = "ort-ours") → ¬(mo.strategy = "ort-theirs") →
      (mergeEntry mo new_path store te oe be).1 =
        (NO_ENTRY, [⟨"structure", CParty.pentry te, CParty.pentry oe, CParty.pentry be,
          "3 way diff and merge of binary files not supported"⟩])) := by
  have hb : (isBinary (storeBlobContent store te.sha) ||
      isBinary (storeBlobContent store oe.sha) ||
      isBinary (storeBlobContent store be.sha)) = true := by
    rcases hbin with h | h | h <;> simp [h]
  refine ⟨?_, ?_, ?_⟩
  · intro hs
    simp [mergeEntry, hsha, hfm, hb, hdiff, hs]
  · intro hs
    have hno : ¬(mo.strategy = "ort-ours") := by simp [hs]
    simp [mergeEntry, hsha, hfm, hb, hdiff, hs, hno]
  · intro hs1 hs2
    simp [mergeEntry, hsha, hfm, hb, hdiff, hs1, hs2]

/-- Witness for `mergeEntry_binary_strategy_cases`: with strategy
`ort-theirs` and the concrete binary store, the other side's entry comes
back. -/
theorem mergeEntry_binary_strategy_cases_witness :
    (mergeEntry ⟨some doFileMergeMyers, none, "ort-theirs"⟩ (some "f") storeBin
        ⟨some "f", some 33188, some "b1"⟩ ⟨some "f", some 33188, some "b2"⟩
        ⟨some "f", some 33188, some "b0"⟩).1 =
      (⟨some "f", some 33188, some "b2"⟩, []) :=
  (mergeEntry_binary_strategy_cases ⟨some doFileMergeMyers, none, "ort-theirs"⟩
    doFileMergeMyers (some "f") storeBin
    ⟨some "f", some 33188, some "b1"⟩ ⟨some "f", some 33188, some "b2"⟩
    ⟨some "f", some 33188, some "b0"⟩
    (by decide) rfl (Or.inl (by decide)) (by decide)).2.1 rfl

/-! ### C5 -/

/-- The diff of a tree against itself is empty. -/
theorem changesBetween_self (t : TreeV) : changesBetween t t = [] := by
  simp only [changesBetween]
  rw [List.filterMap_eq_nil_iff]
  intro p _
  cases h : tlookup t p <;> simp [h]

/-- C5: merging a commit with itself yields a merge result with no
structural and no chunk conflicts whose recorded merged-tree CID equals
the commit's own tree CID — for every repository in which that commit and
its tree are stored consistently (the tree is canonical and stored under
its content CID). -/
theorem merge_self_idempotent (fuel : Nat) (repo : Repo) (mo : MOptions) (a : String)
    (cd : CommitData) (t : TreeV)
    (hA : repo.store a = some (StoreObj.commitObj cd))
    (ht : repo.store cd.tree = some (StoreObj.treeObj t))
    (hcan : canonTreeEntries t = t)
    (hid : encodeTree t = cd.tree) :
    (merge fuel repo mo [a, a]).1 =
      { emptyResults with tree_id := some cd.tree } := by
  have h1 : findMergeBase fuel repo [a, a] = [a] := by
    simp [findMergeBase]
  have htree : repoTreeOf repo a = t := by
    simp [repoTreeOf, repoCommitData, hA, ht]
  have hmt : mergeTree repo.store mo t t t = ([], repo.store) := by
    simp [mergeTree, changesBetween_self]
  have hupd : updatedTreeEntriesWithChanges t [] = t := by
    simpa [updatedTreeEntriesWithChanges] using hcan
  simp [merge, h1, htree, hmt, hupd, createAndStoreMergedTree, hcan, hid, emptyResults]

/-- Witness for `merge_self_idempotent`: merging commit `A` of the
concrete repository with itself returns `A`'s tree CID and no
conflicts. -/
theorem merge_self_idempotent_witness :
    (merge 100 repoOAB moOrt ["A", "A"]).1 =
      { emptyResults with tree_id := some (encodeTree treeO) } :=
  merge_self_idempotent 100 repoOAB moOrt "A" ⟨encodeTree treeO, ["O"], 2⟩ treeO
    (by decide) (by decide) (by decide) rfl

/-! ### C9 (amended) -/

/-- Specification of the scan in `plist_get`: starting from best value
`mdt` at index `bi` with the suffix `rest` beginning at absolute index
`j`, the scan either keeps `bi` (no suffix entry strictly beats `mdt`) or
returns the first suffix position strictly beating `mdt` and never beaten
afterwards. -/
theorem plistIdxAux_spec {C : Type} [Inhabited C] :
    ∀ (rest : List (Int × C)) (mdt : Int) (bi j : Nat),
      (plistIdxAux mdt bi j rest = bi ∧
        ∀ k, k < rest.length → (rest.getD k (0, default)).1 ≤ mdt) ∨
      (∃ k, k < rest.length ∧ plistIdxAux mdt bi j rest = j + k ∧
        mdt < (rest.getD k (0, default)).1 ∧
        (∀ m, m < rest.length →
          (rest.getD m (0, default)).1 ≤ (rest.getD k (0, default)).1) ∧
        (∀ m, m < k → (rest.getD m (0, default)).1 < (rest.getD k (0, default)).1)) := by
  intro rest
  induction rest with
  | nil =>
    intro mdt bi j
    left
    exact ⟨rfl, by intro k hk; simp at hk⟩
  | cons hd tl ih =>
    intro mdt bi j
    obtain ⟨dt, c⟩ := hd
    by_cases hlt : mdt < dt
    · rcases ih dt j (j + 1) with ⟨heq, hall⟩ | ⟨k, hk, heq, hgt, hall, hbefore⟩
      · right
        refine ⟨0, by simp, by simpa [plistIdxAux, hlt] using heq, by simpa using hlt,
          ?_, by intro m hm; simp at hm⟩
        intro m hm
        cases m with
        | zero => simp
        | succ m =>
          have := hall m (by simpa using hm)
          simpa using this
      · right
        refine ⟨k + 1, by simpa using hk, ?_, ?_, ?_, ?_⟩
        · simp only [plistIdxAux, if_pos hlt]
          rw [heq]
          omega
        · simpa using lt_trans hlt hgt
        · intro m hm
          cases m with
          | zero => simpa using le_of_lt hgt
          | succ m =>
            have := hall m (by simpa using hm)
            simpa using this
        · intro m hm
          cases m with
          | zero => simpa using hgt
          | succ m =>
            have := hbefore m (by omega)
            simpa using this
    · rcases ih mdt bi (j + 1) with ⟨heq, hall⟩ | ⟨k, hk, heq, hgt, hall, hbefore⟩
      · left
        refine ⟨by simpa [plistIdxAux, hlt] using heq, ?_⟩
        intro k hk
        cases k with
        | zero => simpa using le_of_not_lt hlt
        | succ k =>
          have := hall k (by simpa using hk)
          simpa using this
      · right
        refine ⟨k + 1, by simpa using hk, ?_, by simpa using hgt, ?_, ?_⟩
        · simp only [plistIdxAux, if_neg hlt]
          rw [heq]
          omega
        · intro m hm
          cases m with
          | zero => simpa using le_trans (le_of_not_lt hlt) (le_of_lt hgt)
          | succ m =>
            have := hall m (by simpa using hm)
            simpa using this
        · intro m hm
          cases m with
          | zero => simpa using lt_of_le_of_lt (le_of_not_lt hlt) hgt
          | succ m =>
            have := hbefore m (by omega)
            simpa using this

/-- C9 (amended): `plist_get` removes and returns an entry with the
greatest timestamp, but when several entries share that greatest timestamp
the tie is broken by insertion order — the first index attaining the
maximum is popped (entries before it are strictly smaller) — not by commit
CID lexicographic order. -/
theorem plistGet_first_argmax {C : Type} [Inhabited C] (l : List (Int × C))
    (h : ¬(l = [])) :
    plistIdx l < l.length ∧
    (∀ j, j < l.length → (l.getD j (0, default)).1 ≤ (l.getD (plistIdx l) (0, default)).1) ∧
    (∀ j, j < plistIdx l → (l.getD j (0, default)).1 < (l.getD (plistIdx l) (0, default)).1) ∧
    plistGet l = (l.getD (plistIdx l) (0, default), l.eraseIdx (plistIdx l)) := by
  cases l with
  | nil => exact absurd rfl h
  | cons hd tl =>
    obtain ⟨dt, c⟩ := hd
    rcases plistIdxAux_spec tl dt 0 1 with ⟨heq, hall⟩ | ⟨k, hk, heq, hgt, hall, hbefore⟩
    · have hidx : plistIdx ((dt, c) :: tl) = 0 := heq
      refine ⟨by simp [hidx], ?_, ?_, rfl⟩
      · intro j hj
        cases j with
        | zero => simp [hidx]
        | succ j =>
          have := hall j (by simpa using hj)
          simpa [hidx] using this
      · intro j hj
        simp [hidx] at hj
    · have hidx : plistIdx ((dt, c) :: tl) = k + 1 := by
        simpa [Nat.add_comm] using heq
      refine ⟨by simp [hidx]; omega, ?_, ?_, rfl⟩
      · intro j hj
        cases j with
        | zero => simpa [hidx] using le_of_lt hgt
        | succ j =>
          have := hall j (by simpa using hj)
          simpa [hidx] using this
      · intro j hj
        cases j with
        | zero => simpa [hidx] using hgt
        | succ j =>
          have hjk : j < k := by omega
          have := hbefore j hjk
          simpa [hidx] using this

/-- Witness for `plistGet_first_argmax`: on the two-entry tie the first
insertion wins. -/
theorem plistGet_first_argmax_witness :
    plistIdx [((5 : Int), "b"), ((5 : Int), "a")] < 2 ∧
    (∀ j, j < 2 →
      (([((5 : Int), "b"), ((5 : Int), "a")]).getD j (0, default)).1 ≤
        (([((5 : Int), "b"), ((5 : Int), "a")]).getD
          (plistIdx [((5 : Int), "b"), ((5 : Int), "a")]) (0, default)).1) ∧
    (∀ j, j < plistIdx [((5 : Int), "b"), ((5 : Int), "a")] →
      (([((5 : Int), "b"), ((5 : Int), "a")]).getD j (0, default)).1 <
        (([((5 : Int), "b"), ((5 : Int), "a")]).getD
          (plistIdx [((5 : Int), "b"), ((5 : Int), "a")]) (0, default)).1) ∧
    plistGet [((5 : Int), "b"), ((5 : Int), "a")] =
      (([((5 : Int), "b"), ((5 : Int), "a")]).getD
        (plistIdx [((5 : Int), "b"), ((5 : Int), "a")]) (0, default),
      ([((5 : Int), "b"), ((5 : Int), "a")]).eraseIdx
        (plistIdx [((5 : Int), "b"), ((5 : Int), "a")])) :=
  plistGet_first_argmax [((5 : Int), "b"), ((5 : Int), "a")] (by decide)

/-! ### C4 -/

/-- C4 counterexample: on the five-commit graph the search returns the
LCA list `[3, 4]`, yet commit 4 is a strict ancestor of commit 3 (via
3 → 5 → 4): the do-not-consider marking stops propagating once every
remaining work-list entry carries it, so a returned LCA can be a strict
ancestor of another returned LCA. -/
theorem findLcas_nested_ancestor_example :
    findLcas 100 cexParents cexStamps 0 1 [2] = [3, 4] ∧
    Anc cexParents 3 4 ∧ ¬((3 : Nat) = 4) := by
  refine ⟨by decide, ?_, by decide⟩
  have h35 : (5 : Nat) ∈ cexParents 3 := by decide
  have h54 : (4 : Nat) ∈ cexParents 5 := by decide
  exact Relation.ReflTransGen.tail
    (Relation.ReflTransGen.tail Relation.ReflTransGen.refl h35) h54

/-- Fold preservation: a property stable under every step of a left fold
holds of the fold result. -/
theorem foldl_preserve {α β : Type} (f : β → α → β) (P : β → Prop) (l : List α)
    (hstep : ∀ b a, a ∈ l → P b → P (f b a)) :
    ∀ b, P b → P (l.foldl f b) := by
  induction l with
  | nil => intro b h; exact h
  | cons a t ih =>
    intro b h
    exact ih (fun c x hx hc => hstep c x (List.mem_cons_of_mem a hx) hc) (f b a)
      (hstep b a (List.mem_cons_self a t) h)

/-- The ancestry invariant of a `_find_lcas` state: the ANC_OF_1 bit marks
ancestors of `c1`, the ANC_OF_2 bit marks ancestors of some member of
`c2s`, and every candidate carries both bits. -/
def LcasInv {C : Type} (parents : C → List C) (c1 : C) (c2s : List C)
    (st : LcasState C) : Prop :=
  (∀ x, (st.cstates x).anc1 = true → Anc parents c1 x) ∧
  (∀ x, (st.cstates x).anc2 = true → ∃ c2 ∈ c2s, Anc parents c2 x) ∧
  (∀ p ∈ st.cands, (st.cstates p.2).anc1 = true ∧ (st.cstates p.2).anc2 = true)

/-- One loop iteration preserves the ancestry invariant. -/
theorem lcasStep_inv {C : Type} [DecidableEq C] [Inhabited C] (parents : C → List C)
    (stamp : C → Int) (minStamp : Int) (c1 : C) (c2s : List C) (st : LcasState C)
    (h : LcasInv parents c1 c2s st) :
    LcasInv parents c1 c2s (lcasStep parents stamp minStamp st) := by
  obtain ⟨h1, h2, h3⟩ := h
  simp only [lcasStep]
  generalize hpg : plistGet st.wlst = pg
  obtain ⟨⟨dt, cmt⟩, rest⟩ := pg
  simp only []
  set cflags0 := (st.cstates cmt).maskACD with hcf0
  set newCand := cflags0 = ancBothFlag ∧ (st.cstates cmt).lca = false with hnc
  set cstates1 := if newCand then
    updFlags st.cstates cmt ((st.cstates cmt).lor lcaFlag) else st.cstates with hcs1
  set cands1 := if newCand then st.cands ++ [(dt, cmt)] else st.cands with hcd1
  set cflags := if cflags0 = ancBothFlag then cflags0.lor dncFlag else cflags0 with hcf
  -- facts about the propagated flags
  have hcfa1 : cflags.anc1 = true → (st.cstates cmt).anc1 = true := by
    rw [hcf, hcf0]
    split <;> simp [GFlags.lor, GFlags.maskACD, dncFlag]
  have hcfa2 : cflags.anc2 = true → (st.cstates cmt).anc2 = true := by
    rw [hcf, hcf0]
    split <;> simp [GFlags.lor, GFlags.maskACD, dncFlag]
  -- facts about the candidate-marking update
  have hcs1a1 : ∀ x, (cstates1 x).anc1 = (st.cstates x).anc1 := by
    intro x
    rw [hcs1]
    split <;> simp [updFlags, GFlags.lor, lcaFlag]
    split <;> simp_all [GFlags.lor, lcaFlag]
  have hcs1a2 : ∀ x, (cstates1 x).anc2 = (st.cstates x).anc2 := by
    intro x
    rw [hcs1]
    split <;> simp [updFlags, GFlags.lor, lcaFlag]
    split <;> simp_all [GFlags.lor, lcaFlag]
  -- the parent fold preserves the two ancestry properties and is monotone
  have hfold :
      (∀ x, (((parents cmt).foldl (fun acc p =>
          if cflags.subsetOf (acc.1 p) then acc
          else if stamp p < minStamp then acc
          else (updFlags acc.1 p ((acc.1 p).lor cflags), acc.2 ++ [(stamp p, p)]))
          (cstates1, rest)).1 x).anc1 = true → Anc parents c1 x) ∧
      (∀ x, (((parents cmt).foldl (fun acc p =>
          if cflags.subsetOf (acc.1 p) then acc
          else if stamp p < minStamp then acc
          else (updFlags acc.1 p ((acc.1 p).lor cflags), acc.2 ++ [(stamp p, p)]))
          (cstates1, rest)).1 x).anc2 = true → ∃ c2 ∈ c2s, Anc parents c2 x) ∧
      (∀ x, (cstates1 x).anc1 = true →
        (((parents cmt).foldl (fun acc p =>
          if cflags.subsetOf (acc.1 p) then acc
          else if stamp p < minStamp then acc
          else (updFlags acc.1 p ((acc.1 p).lor cflags), acc.2 ++ [(stamp p, p)]))
          (cstates1, rest)).1 x).anc1 = true) ∧
      (∀ x, (cstates1 x).anc2 = true →
        (((parents cmt).foldl (fun acc p =>
          if cflags.subsetOf (acc.1 p) then acc
          else if stamp p < minStamp then acc
          else (updFlags acc.1 p ((acc.1 p).lor cflags), acc.2 ++ [(stamp p, p)]))
          (cstates1, rest)).1 x).anc2 = true) := by
    have := foldl_preserve (fun acc p =>
        if cflags.subsetOf (acc.1 p) then acc
        else if stamp p < minStamp then acc
        else (updFlags acc.1 p ((acc.1 p).lor cflags), acc.2 ++ [(stamp p, p)]))
      (fun acc => (∀ x, (acc.1 x).anc1 = true → Anc parents c1 x) ∧
        (∀ x, (acc.1 x).anc2 = true → ∃ c2 ∈ c2s, Anc parents c2 x) ∧
        (∀ x, (cstates1 x).anc1 = true → (acc.1 x).anc1 = true) ∧
        (∀ x, (cstates1 x).anc2 = true → (acc.1 x).anc2 = true))
      (parents cmt) ?_ (cstates1, rest) ?_
    · exact ⟨this.1, this.2.1, this.2.2.1, this.2.2.2⟩
    · intro b p hp hb
      obtain ⟨hb1, hb2, hb3, hb4⟩ := hb
      dsimp only
      by_cases hc1 : cflags.subsetOf (b.1 p) = true
      · rw [if_pos hc1]
        exact ⟨hb1, hb2, hb3, hb4⟩
      · by_cases hc2 : stamp p < minStamp
        · rw [if_neg hc1, if_pos hc2]
          exact ⟨hb1, hb2, hb3, hb4⟩
        · rw [if_neg hc1, if_neg hc2]
          refine ⟨?_, ?_, ?_, ?_⟩
          · intro x hx
            simp only [updFlags] at hx
            by_cases hxp : x = p
            · subst hxp
              rw [if_pos rfl] at hx
              simp only [GFlags.lor, Bool.or_eq_true] at hx
              rcases hx with hx | hx
              · exact hb1 x hx
              · exact Relation.ReflTransGen.tail (h1 cmt (hcfa1 hx)) hp
            · rw [if_neg hxp] at hx
              exact hb1 x hx
          · intro x hx
            simp only [updFlags] at hx
            by_cases hxp : x = p
            · subst hxp
              rw [if_pos rfl] at hx
              simp only [GFlags.lor, Bool.or_eq_true] at hx
              rcases hx with hx | hx
              · exact hb2 x hx
              · obtain ⟨c2, hc2m, hanc⟩ := h2 cmt (hcfa2 hx)
                exact ⟨c2, hc2m, Relation.ReflTransGen.tail hanc hp⟩
            · rw [if_neg hxp] at hx
              exact hb2 x hx
          · intro x hx
            simp only [updFlags]
            by_cases hxp : x = p
            · subst hxp
              rw [if_pos rfl]
              simp only [GFlags.lor, Bool.or_eq_true]
              exact Or.inl (hb3 x hx)
            · rw [if_neg hxp]
              exact hb3 x hx
          · intro x hx
            simp only [updFlags]
            by_cases hxp : x = p
            · subst hxp
              rw [if_pos rfl]
              simp only [GFlags.lor, Bool.or_eq_true]
              exact Or.inl (hb4 x hx)
            · rw [if_neg hxp]
              exact hb4 x hx
    · refine ⟨?_, ?_, fun x hx => hx, fun x hx => hx⟩
      · intro x hx
        rw [hcs1a1 x] at hx
        exact h1 x hx
      · intro x hx
        rw [hcs1a2 x] at hx
        exact h2 x hx
  obtain ⟨hf1, hf2, hf3, hf4⟩ := hfold
  refine ⟨hf1, hf2, ?_⟩
  intro p hp
  rw [hcd1] at hp
  by_cases hncb : newCand
  · rw [if_pos hncb] at hp
    rcases List.mem_append.mp hp with hpo | hpn
    · have := h3 p hpo
      exact ⟨hf3 p.2 (by rw [hcs1a1]; exact this.1), hf4 p.2 (by rw [hcs1a2]; exact this.2)⟩
    · have hpc : p = (dt, cmt) := by simpa using hpn
      subst hpc
      have ha1 : (st.cstates cmt).anc1 = true := by
        have := congrArg GFlags.anc1 hncb.1
        simpa [GFlags.maskACD, ancBothFlag] using this
      have ha2 : (st.cstates cmt).anc2 = true := by
        have := congrArg GFlags.anc2 hncb.1
        simpa [GFlags.maskACD, ancBothFlag] using this
      exact ⟨hf3 cmt (by rw [hcs1a1]; exact ha1), hf4 cmt (by rw [hcs1a2]; exact ha2)⟩
  · rw [if_neg hncb] at hp
    have := h3 p hp
    exact ⟨hf3 p.2 (by rw [hcs1a1]; exact this.1), hf4 p.2 (by rw [hcs1a2]; exact this.2)⟩

/-- The fueled loop preserves the ancestry invariant. -/
theorem lcasLoop_inv {C : Type} [DecidableEq C] [Inhabited C] (parents : C → List C)
    (stamp : C → Int) (minStamp : Int) (c1 : C) (c2s : List C) :
    ∀ (fuel : Nat) (st : LcasState C), LcasInv parents c1 c2s st →
      LcasInv parents c1 c2s (lcasLoop parents stamp minStamp fuel st) := by
  intro fuel
  induction fuel with
  | zero => intro st h; exact h
  | succ fuel ih =>
    intro st h
    simp only [lcasLoop]
    by_cases hc : hasCandidates st.wlst st.cstates = true
    · rw [if_pos hc]
      exact ih _ (lcasStep_inv parents stamp minStamp c1 c2s st h)
    · rw [if_neg hc]
      exact h

/-- The initial `_find_lcas` state satisfies the ancestry invariant. -/
theorem lcasInit_inv {C : Type} [DecidableEq C] (parents : C → List C) (stamp : C → Int)
    (c1 : C) (c2s : List C) :
    LcasInv parents c1 c2s
      ⟨(stamp c1, c1) :: c2s.map (fun c2 => (stamp c2, c2)),
        c2s.foldl (fun cs c2 => updFlags cs c2 ((cs c2).lor ancTwoFlag))
          (updFlags (fun _ => GFlags.zero) c1 ancOneFlag), []⟩ := by
  refine ⟨?_, ?_, by intro p hp; cases hp⟩ <;>
    · intro x
      have := foldl_preserve (fun cs c2 => updFlags cs c2 ((cs c2).lor ancTwoFlag))
        (fun cs => (∀ y, (cs y).anc1 = true → Anc parents c1 y) ∧
          (∀ y, (cs y).anc2 = true → ∃ c2 ∈ c2s, Anc parents c2 y))
        c2s ?_ (updFlags (fun _ => GFlags.zero) c1 ancOneFlag) ?_
      · first
          | exact fun hx => this.1 x hx
          | exact fun hx => this.2 x hx
      · intro cs c2 hc2 hcs
        refine ⟨?_, ?_⟩
        · intro y hy
          simp only [updFlags] at hy
          by_cases hyc : y = c2
          · rw [if_pos hyc] at hy
            simp only [GFlags.lor, ancTwoFlag, Bool.or_eq_true] at hy
            rcases hy with hy | hy
            · exact hcs.1 y (by rw [hyc]; exact hy)
            · cases hy
          · rw [if_neg hyc] at hy
            exact hcs.1 y hy
        · intro y hy
          simp only [updFlags] at hy
          by_cases hyc : y = c2
          · exact ⟨c2, hc2, by rw [hyc]; exact Relation.ReflTransGen.refl⟩
          · rw [if_neg hyc] at hy
            exact hcs.2 y hy
      · refine ⟨?_, ?_⟩
        · intro y hy
          simp only [updFlags] at hy
          by_cases hyc : y = c1
          · subst hyc
            exact Relation.ReflTransGen.refl
          · rw [if_neg hyc] at hy
            simp [GFlags.zero] at hy
        · intro y hy
          simp only [updFlags] at hy
          by_cases hyc : y = c1
          · rw [if_pos hyc] at hy
            simp [ancOneFlag] at hy
          · rw [if_neg hyc] at hy
            simp [GFlags.zero] at hy

/-- Membership through the stable insertion. -/
theorem mem_insByStamp {C : Type} (x y : Int × C) (l : List (Int × C))
    (h : y ∈ insByStamp x l) : y = x ∨ y ∈ l := by
  induction l with
  | nil =>
    simp only [insByStamp, List.mem_singleton] at h
    exact Or.inl h
  | cons z t ih =>
    simp only [insByStamp] at h
    by_cases hz : z.1 < x.1
    · rw [if_pos hz] at h
      rcases List.mem_cons.mp h with h | h
      · exact Or.inr (List.mem_cons.mpr (Or.inl h))
      · rcases ih h with h | h
        · exact Or.inl h
        · exact Or.inr (List.mem_cons.mpr (Or.inr h))
    · rw [if_neg hz] at h
      rcases List.mem_cons.mp h with h | h
      · exact Or.inl h
      · exact Or.inr h

/-- Membership through the stable sort. -/
theorem mem_sortByStamp {C : Type} (y : Int × C) (l : List (Int × C))
    (h : y ∈ sortByStamp l) : y ∈ l := by
  induction l with
  | nil =>
    simp only [sortByStamp] at h
    exact h
  | cons x t ih =>
    simp only [sortByStamp] at h
    rcases mem_insByStamp x y (sortByStamp t) h with h | h
    · exact List.mem_cons.mpr (Or.inl h)
    · exact List.mem_cons.mpr (Or.inr (ih h))

/-- The final candidate walk only keeps candidates. -/
theorem lcasResults_subset {C : Type} [DecidableEq C] (cstates : C → GFlags)
    (cands : List (Int × C)) (q : Int × C) (h : q ∈ lcasResults cstates cands) :
    q ∈ cands := by
  have key : ∀ (l init : List (Int × C)),
      q ∈ l.foldl (fun res p =>
        if (cstates p.2).dnc = false ∧ ¬(p ∈ res) then res ++ [p] else res) init →
      q ∈ init ∨ q ∈ l := by
    intro l
    induction l with
    | nil => intro init h; exact Or.inl h
    | cons p t ih =>
      intro init h
      simp only [List.foldl_cons] at h
      rcases ih _ h with hcase | hcase
      · by_cases hcond : (cstates p.2).dnc = false ∧ ¬(p ∈ init)
        · rw [if_pos hcond] at hcase
          rcases List.mem_append.mp hcase with h2 | h2
          · exact Or.inl h2
          · exact Or.inr (List.mem_cons.mpr (Or.inl (by simpa using h2)))
        · rw [if_neg hcond] at hcase
          exact Or.inl hcase
      · exact Or.inr (List.mem_cons.mpr (Or.inr hcase))
  rcases key cands [] h with h2 | h2
  · cases h2
  · exact h2

/-- C4 (amended): every LCA returned by the merge-base search is an
ancestor of the first input and of one of the other inputs (for a pair:
of both inputs); the second half of the original claim fails — a returned
LCA may be a strict ancestor of another returned LCA, because the
do-not-consider bit stops propagating once every remaining work-list entry
carries it. -/
theorem findLcas_ancestor_of_both {C : Type} [DecidableEq C] [Inhabited C]
    (fuel : Nat) (parents : C → List C) (stamp : C → Int) (minStamp : Int)
    (c1 : C) (c2s : List C) (x : C)
    (hx : x ∈ findLcas fuel parents stamp minStamp c1 c2s) :
    Anc parents c1 x ∧ ∃ c2 ∈ c2s, Anc parents c2 x := by
  simp only [findLcas] at hx
  rcases List.mem_map.mp hx with ⟨p, hp, hpx⟩
  have hp2 := mem_sortByStamp p _ hp
  have hp3 := lcasResults_subset _ _ p hp2
  have hinv := lcasLoop_inv parents stamp minStamp c1 c2s fuel _
    (lcasInit_inv parents stamp c1 c2s)
  obtain ⟨h1, h2, h3⟩ := hinv
  obtain ⟨ha1, ha2⟩ := h3 p hp3
  subst hpx
  exact ⟨h1 p.2 ha1, h2 p.2 ha2⟩

/-- Witness for `findLcas_ancestor_of_both`: commit 3 is returned on the
concrete graph and is an ancestor of both tips. -/
theorem findLcas_ancestor_of_both_witness :
    Anc cexParents 1 3 ∧ ∃ c2 ∈ [2], Anc cexParents c2 3 :=
  findLcas_ancestor_of_both 100 cexParents cexStamps 0 1 [2] 3 (by decide)

/-! ### C7 -/

/-- C7 counterexample: with the empty base, empty alice and non-empty bob,
alice differs from bob yet the myers file merge reports no conflict at
all — the chunk resolves two-way to bob — contradicting the claim that a
conflict covering the added lines is reported unless alice equals bob. -/
theorem doFileMergeMyers_empty_base_clean_example :
    doFileMergeMyers (bstr "") (bstr "x\n") (bstr "") "ort" = (bstr "x\n", []) ∧
    ¬(bstr "" = bstr "x\n") := by
  refine ⟨by decide, by decide⟩

/-- A non-empty byte string has at least one line. -/
theorem splitLines_ne_nil (s : Bytes) (h : ¬(s = [])) : ¬(splitLines s = []) := by
  intro hnil
  have hjs := joinBytes_splitLines s
  rw [hnil] at hjs
  simp only [joinBytes, List.flatten_nil] at hjs
  exact h hjs.symm

/-- With no line in common there is no histogram anchor. -/
theorem bestAnchor_none (os ds : List Bytes) (h : ∀ l ∈ os, ¬(l ∈ ds)) :
    bestAnchor os ds = none := by
  have hfil : anchorCands os ds = [] := by
    rw [anchorCands, List.filter_eq_nil_iff]
    intro a ha hc
    exact h a ha (by simpa using hc)
  simp [bestAnchor, hfil]

/-- With no line in common the synthesized common base is empty. -/
theorem commonBase_eq_nil (os ds : List Bytes) (h : ∀ l ∈ os, ¬(l ∈ ds)) :
    commonBase os ds = [] := by
  have hba := bestAnchor_none os ds h
  simp only [commonBase, histDiff, histDiffF, hba]
  simp

/-- Every token of a diff of the empty base is an insertion. -/
theorem sesTokensF_nil_left_ins :
    ∀ (fuel : Nat) (ds : List Bytes) (t : DiffLine),
      t ∈ sesTokensF fuel [] ds → t.1 = DTok.ins := by
  intro fuel
  induction fuel with
  | zero =>
    intro ds t ht
    simp [sesTokensF] at ht
  | succ fuel ih =>
    intro ds t ht
    cases ds with
    | nil => simp [sesTokensF] at ht
    | cons d ds =>
      simp only [sesTokensF, List.mem_cons] at ht
      rcases ht with ht | ht
      · rw [ht]
      · exact ih ds t ht

/-- A token stream of insertions only produces the empty match
dictionary. -/
theorem tokensToMatches_all_ins (toks : List DiffLine)
    (h : ∀ t ∈ toks, t.1 = DTok.ins) : tokensToMatches toks = [] := by
  have key : ∀ (l : List DiffLine) (st : Nat × Nat × List (Nat × Nat)),
      (∀ t ∈ l, t.1 = DTok.ins) →
      (l.foldl (fun st t =>
        match t.1 with
        | DTok.keep => (st.1 + 1, st.2.1 + 1, st.2.2 ++ [(st.1 + 1, st.2.1 + 1)])
        | DTok.ins => (st.1, st.2.1 + 1, st.2.2)
        | DTok.del => (st.1 + 1, st.2.1, st.2.2)) st).2.2 = st.2.2 := by
    intro l
    induction l with
    | nil => intro st _; rfl
    | cons t ts ih =>
      intro st hall
      have ht := hall t (List.mem_cons_self t ts)
      simp only [List.foldl_cons, ht]
      exact ih (st.1, st.2.1 + 1, st.2.2) (fun u hu => hall u (List.mem_cons_of_mem t hu))
  simpa [tokensToMatches] using key toks (0, 0, []) h

/-- Taking at least the whole list joins to the whole list. -/
theorem joinRange_all (lines : List Bytes) (n : Nat) (h : lines.length ≤ n) :
    joinRange lines (0, n) = joinBytes lines := by
  simp only [joinRange, List.drop_zero, Nat.sub_zero]
  rw [List.take_of_length_le h]

/-- C7 (amended): with the empty base the merger first synthesizes an
ancestor from the common lines of alice and bob, so a chunk conflicts only
where both sides add differing non-common content; when alice and bob are
non-empty, distinct, and share no line, the default-strategy merge emits a
single conflict covering all added lines with the diff3 markup around an
empty ancestor section.  (A side that is empty — or content absorbed by
common lines — resolves two-way without conflict, which is where the
original claim fails.) -/
theorem doFileMergeMyers_empty_base_disjoint (alice bob : Bytes) (strategy : String)
    (ha : ¬(alice = [])) (hb : ¬(bob = [])) (hne : ¬(alice = bob))
    (hdisj : ∀ l ∈ splitLines alice, ¬(l ∈ splitLines bob))
    (hs1 : ¬(strategy = "ort-ours" ∨ strategy = "resolve-ours"))
    (hs2 : ¬(strategy = "ort-theirs" ∨ strategy = "resolve-theirs")) :
    doFileMergeMyers alice bob [] strategy =
      (bstr "<<<<<<<<< alice\n" ++ alice ++ bstr "||||||||| ancestor\n" ++
        bstr "========= \n" ++ bob ++ bstr ">>>>>>>>> bob\n",
      [((0, 1), (0, (splitLines alice).length + 1), (0, (splitLines bob).length + 1))]) := by
  have hanc : generateCommonAncestor alice bob = [] := by
    simp [generateCommonAncestor, commonBase_eq_nil _ _ hdisj, joinBytes]
  have hla : 1 ≤ (splitLines alice).length :=
    Nat.pos_of_ne_zero (fun h0 => splitLines_ne_nil alice ha (List.length_eq_zero.mp h0))
  have hmaA : tokensToMatches (diffTokens DiffKind.myers [] (splitLines alice)) = [] := by
    refine tokensToMatches_all_ins _ ?_
    intro t ht
    exact sesTokensF_nil_left_ins _ _ t (by simpa [diffTokens, sesTokens] using ht)
  have hmaB : tokensToMatches (diffTokens DiffKind.myers [] (splitLines bob)) = [] := by
    refine tokensToMatches_all_ins _ ?_
    intro t ht
    exact sesTokensF_nil_left_ins _ _ t (by simpa [diffTokens, sesTokens] using ht)
  have hst0 : m3Init alice bob [] DiffKind.myers strategy =
      ⟨[], splitLines alice, splitLines bob, strategy, [], [], 0, 0, 0, [], []⟩ := by
    show M3State.mk _ _ _ _ _ _ _ _ _ _ _ = _
    rw [show splitLines [] = [] from rfl, hmaA, hmaB]
  have hfnm : m3FindNextMismatch
      ⟨[], splitLines alice, splitLines bob, strategy, [], [], 0, 0, 0, [], []⟩ =
      some 1 := by
    show m3FindNextMismatchF _
      (([] : List Bytes).length + (splitLines alice).length + (splitLines bob).length + 2)
      1 = some 1
    rw [show ([] : List Bytes).length + (splitLines alice).length +
        (splitLines bob).length + 2 =
        ((splitLines alice).length + (splitLines bob).length + 1) + 1 from by
      simp]
    simp only [m3FindNextMismatchF]
    rw [if_neg (by simp [m3Ismatch, mmLookup]), if_pos (by
      simp only [m3Inbounds]
      simp
      omega)]
  have hfm : m3FindNextMatch
      ⟨[], splitLines alice, splitLines bob, strategy, [], [], 0, 0, 0, [], []⟩ =
      (1, none, none) := by
    show (m3FindNextMatchF _ (([] : List Bytes).length + 2) (0 + 1),
      mmLookup [] (m3FindNextMatchF _ (([] : List Bytes).length + 2) (0 + 1)),
      mmLookup [] (m3FindNextMatchF _ (([] : List Bytes).length + 2) (0 + 1))) = _
    have hov : m3FindNextMatchF
        (⟨[], splitLines alice, splitLines bob, strategy, [], [], 0, 0, 0, [], []⟩ :
          M3State) (([] : List Bytes).length + 2) (0 + 1) = 1 := by
      show m3FindNextMatchF _ 2 1 = 1
      simp only [m3FindNextMatchF]
      rw [if_pos (by simp)]
    rw [hov]
    rfl
  have hgen : ∀ f, m3GenerateChunks (f + 1)
      ⟨[], splitLines alice, splitLines bob, strategy, [], [], 0, 0, 0, [], []⟩ =
      m3EmitFinalChunk
        ⟨[], splitLines alice, splitLines bob, strategy, [], [], 0, 0, 0, [], []⟩ := by
    intro f
    simp only [m3GenerateChunks, hfnm, hfm]
    simp
  have hwc : writeChunk [] (splitLines alice) (splitLines bob) strategy
      (0, 1) (0, (splitLines alice).length + 1) (0, (splitLines bob).length + 1) =
      (conflictMarkup alice [] bob,
        [((0, 1), (0, (splitLines alice).length + 1),
          (0, (splitLines bob).length + 1))]) := by
    have hoc : joinRange [] (0, 1) = ([] : Bytes) := rfl
    have hac : joinRange (splitLines alice) (0, (splitLines alice).length + 1) = alice := by
      rw [joinRange_all _ _ (Nat.le_succ _), joinBytes_splitLines]
    have hbc : joinRange (splitLines bob) (0, (splitLines bob).length + 1) = bob := by
      rw [joinRange_all _ _ (Nat.le_succ _), joinBytes_splitLines]
    rw [writeChunk, hoc, hac, hbc, resolveChunk]
    rw [if_neg (by rintro ⟨h1, -⟩; exact ha h1.symm),
      if_neg (fun h1 => ha h1.symm),
      if_neg (fun h1 => hb h1.symm),
      if_neg hne, if_neg hs1, if_neg hs2]
  show (joinBytes (m3GenerateChunks _ (m3Init alice bob
    (if pyBytesFalsy [] = true then generateCommonAncestor alice bob else [])
    DiffKind.myers strategy)).chunks, _) = _
  rw [show (if pyBytesFalsy [] = true then generateCommonAncestor alice bob
      else ([] : Bytes)) = generateCommonAncestor alice bob from rfl, hanc, hst0]
  rw [show (⟨[], splitLines alice, splitLines bob, strategy, [], [], 0, 0, 0, [], []⟩ :
      M3State).olines.length +
      (⟨[], splitLines alice, splitLines bob, strategy, [], [], 0, 0, 0, [], []⟩ :
        M3State).alines.length +
      (⟨[], splitLines alice, splitLines bob, strategy, [], [], 0, 0, 0, [], []⟩ :
        M3State).blines.length + 2 =
      ((splitLines alice).length + (splitLines bob).length + 1) + 1 from by
    simp]
  rw [hgen]
  show (joinBytes (m3ApplyChunk _ _ _ _).chunks, (m3ApplyChunk _ _ _ _).conflicts) = _
  simp only [m3ApplyChunk, m3EmitFinalChunk]
  rw [show (⟨[], splitLines alice, splitLines bob, strategy, [], [], 0, 0, 0, [], []⟩ :
      M3State).olines.length + 1 = 1 from rfl]
  rw [hwc]
  simp [joinBytes, conflictMarkup, bstr]

/-- Witness for `doFileMergeMyers_empty_base_disjoint`: one-line disjoint
sides over the empty base produce exactly one full-width conflict. -/
theorem doFileMergeMyers_empty_base_disjoint_witness :
    doFileMergeMyers (bstr "a\n") (bstr "b\n") [] "ort" =
      (bstr "<<<<<<<<< alice\n" ++ bstr "a\n" ++ bstr "||||||||| ancestor\n" ++
        bstr "========= \n" ++ bstr "b\n" ++ bstr ">>>>>>>>> bob\n",
      [((0, 1), (0, (splitLines (bstr "a\n")).length + 1),
        (0, (splitLines (bstr "b\n")).length + 1))]) :=
  doFileMergeMyers_empty_base_disjoint (bstr "a\n") (bstr "b\n") "ort"
    (by decide) (by decide) (by decide) (by decide) (by decide) (by decide)
